import Mathlib

/-!
Verification of the nested-set (MPTT) tree core of the referral-hierarchy
backend: the full-rebuild numbering algorithm (TreeBuilder), the interval
query layer (TreeQuery: ancestors / descendants / roots / descendant count),
the import-time parent normalization, and the seller wallet-claim bookkeeping.

The repository delegates the numbering algorithm itself to the django-mptt
library (`LimitlessUser.objects.rebuild()`, `get_ancestors`,
`get_descendants`, `get_descendant_count`), whose source is not part of the
repository; those operations are modelled from the specification (spec §4.2
and §4.4), as marked on each definition.  Everything else is translated from
the repository source: the roots endpoint ordering and the
`(rght - lft - 1) / 2` descendant-count formula from
`apps/limitless/views.py`, the two-pass parent resolution from
`apps/core/management/commands/import_csv.py` and `quick_import.py`, the
`on_delete=SET_NULL` parent policy from `apps/limitless/models.py`, and the
seller-assignment validation from `apps/core/models.py` and
`apps/core/serializers.py`.
-/

/-- One input row of a full rebuild: the `(id, parent_id, sort_key)` triple
supplied to TreeBuilder (spec §2; `import_csv.py` reads `id`, `parent_id` and
the ordering key per user row).  `sort_key` is an orderable value; `Nat`
stands in for the orderable domain. -/
structure Node where
  id : Nat
  parent_id : Option Nat
  sort_key : Nat
deriving DecidableEq, Repr

/-- One record of the node store after a rebuild: the node data plus the four
derived numbering fields (spec §3).  `parent` is the resolved parent link —
the import pipeline (`import_csv.py` second pass, `quick_import.py`) sets a
parent link only when it resolves to an imported node, so an unresolved
`parent_id` is stored as `none`. -/
structure StoredNode where
  id : Nat
  parent : Option Nat
  sort_key : Nat
  left : Nat
  right : Nat
  tree_id : Nat
  depth : Nat
deriving DecidableEq, Repr

/-- Follow one parent pointer: `none` when the node is a root or its
`parent_id` does not resolve to a live node (the defensive policy of
spec §4.2 step 1, matching the import pipeline which only links resolvable
parents). -/
def stepUp (ns : List Node) (x : Node) : Option Node :=
  match x.parent_id with
  | none => none
  | some p => ns.find? (fun m => m.id == p)

/-- Follow parent pointers upward `k` times. -/
def chainUpN (ns : List Node) : Nat → Node → Option Node
  | 0, x => some x
  | k + 1, x =>
    match stepUp ns x with
    | none => none
    | some m => chainUpN ns k m

/-- The list of strict ancestors of `x` obtained by walking parent pointers
upward, bounded by the given amount of fuel. -/
def upChain (ns : List Node) : Nat → Node → List Node
  | 0, _ => []
  | f + 1, x =>
    match stepUp ns x with
    | none => []
    | some m => m :: upChain ns f m

/-- Whether the parent-walk from `x` reaches a parentless node within the
given number of steps. -/
def reachesRoot (ns : List Node) : Nat → Node → Bool
  | 0, x => (stepUp ns x).isNone
  | f + 1, x =>
    match stepUp ns x with
    | none => true
    | some m => reachesRoot ns f m

/-- Modelled from the spec (§4.2 step 1): cycle detection by a parent-walk
for every node.  A walk that fails to reach a root within `ns.length` steps
has revisited some node (there are only `ns.length` distinct nodes), i.e. the
parent-pointer graph contains a cycle. -/
def hasCycle (ns : List Node) : Bool :=
  ns.any (fun n => !(reachesRoot ns ns.length n))

/-- Sibling order: ascending `sort_key`, ties broken by `id` (spec §3; the
source orders siblings by the `order_insertion_by` key of
`apps/limitless/models.py`). -/
def sibLE (a b : Node) : Prop :=
  a.sort_key < b.sort_key ∨ (a.sort_key = b.sort_key ∧ a.id ≤ b.id)

instance : DecidableRel sibLE := fun a b =>
  inferInstanceAs (Decidable (a.sort_key < b.sort_key ∨
    (a.sort_key = b.sort_key ∧ a.id ≤ b.id)))

instance : IsTotal Node sibLE := by
  constructor
  intro a b
  unfold sibLE
  omega

instance : IsTrans Node sibLE := by
  constructor
  intro a b c
  unfold sibLE
  omega

/-- The children of the node with id `p`, in sibling order (spec §4.2
step 3). -/
def childrenOf (ns : List Node) (p : Nat) : List Node :=
  List.insertionSort sibLE (ns.filter (fun n => n.parent_id == some p))

/-- The root set of the input: nodes whose parent pointer is absent or does
not resolve (spec §4.2 step 1), in sibling order (spec §4.2 step 2). -/
def rootNodes (ns : List Node) : List Node :=
  List.insertionSort sibLE (ns.filter (fun n => (stepUp ns n).isNone))

/-- The store record written for node `n` with the given numbering fields;
the parent link is the resolved parent as the import pipeline stores it. -/
def mkEntry (ns : List Node) (n : Node) (tid l r d : Nat) : StoredNode :=
  ⟨n.id, (stepUp ns n).map (fun m => m.id), n.sort_key, l, r, tid, d⟩

/-- Number a list of sibling subtrees in order, threading the counter; each
sibling is numbered by `step` (the numbering of one subtree at the next
depth). -/
def numberKids (step : Node → Nat → Nat → Nat → List StoredNode × Nat) :
    List Node → Nat → Nat → Nat → List StoredNode × Nat
  | [], _, c, _ => ([], c)
  | x :: xs, tid, c, d =>
    let a := step x tid c d
    let b := numberKids step xs tid a.2 d
    (a.1 ++ b.1, b.2)

/-- Modelled from the spec (§4.2 step 3, the body of the library rebuild that
the source invokes): the depth-first pre-order numbering of one tree.  On
entering a node assign `left` from the running counter, recurse into its
children in sibling order, then assign `right`; depth is the recursion depth.
The walk is bounded by fuel; fuel `ns.length` always suffices on cycle-free
input, because a parent chain never repeats a node. -/
def numberNode (ns : List Node) : Nat → Node → Nat → Nat → Nat →
    List StoredNode × Nat
  | 0, n, tid, c, d => ([mkEntry ns n tid c (c + 1) d], c + 2)
  | f + 1, n, tid, c, d =>
    let res := numberKids (fun m => numberNode ns f m)
      (childrenOf ns n.id) tid (c + 1) (d + 1)
    (mkEntry ns n tid c res.2 d :: res.1, res.2 + 1)

/-- Number the trees of the forest, one per root, assigning tree ids
sequentially from `tid` and restarting the counter at 1 per tree (spec §4.2
steps 2 and 3). -/
def numberRoots (ns : List Node) : List Node → Nat → List StoredNode
  | [], _ => []
  | r :: rs, tid =>
    (numberNode ns ns.length r tid 1 0).1 ++ numberRoots ns rs (tid + 1)

/-- The complete forest numbering of the input (spec §4.2). -/
def buildStore (ns : List Node) : List StoredNode :=
  numberRoots ns (rootNodes ns) 1

/-- The fatal failure modes of a full rebuild (spec §4.2 / §7). -/
inductive BuildError where
  | DuplicateId : BuildError
  | CycleDetected : BuildError
deriving DecidableEq, Repr

/-- Modelled from the spec (§4.2): the full rebuild.  Duplicate ids and
cycles are fatal; otherwise the forest numbering is produced. -/
def build (input : List Node) : Except BuildError (List StoredNode) :=
  if ¬ (input.map (fun n => n.id)).Nodup then .error .DuplicateId
  else if hasCycle input then .error .CycleDetected
  else .ok (buildStore input)

/-- A rebuild applied to a live store: on success the new numbering replaces
the store, on failure the store is left untouched (the rebuild runs inside
`transaction.atomic` in `import_csv.py`, so a failed rebuild rolls back). -/
def rebuildOrKeep (store : List StoredNode) (input : List Node) :
    List StoredNode × Option BuildError :=
  match build input with
  | .ok fresh => (fresh, none)
  | .error e => (store, some e)

/-- Number of strict descendants from the numbering fields:
`(rght - lft - 1) / 2`, as annotated in `LimitlessUserViewSet.roots`
(`apps/limitless/views.py`) and used by `get_team_size`
(`apps/limitless/serializers.py`). -/
def descendantCount (x : StoredNode) : Nat :=
  (x.right - x.left - 1) / 2

/-- Ascending-left order used to present query results. -/
def byLeft (a b : StoredNode) : Prop :=
  a.left ≤ b.left

instance : DecidableRel byLeft := fun a b =>
  inferInstanceAs (Decidable (a.left ≤ b.left))

instance : IsTotal StoredNode byLeft := by
  constructor
  intro a b
  unfold byLeft
  omega

instance : IsTrans StoredNode byLeft := by
  constructor
  intro a b c
  unfold byLeft
  omega

/-- Modelled from the spec (§4.4, the `get_ancestors` library call made by
`LimitlessUserViewSet.ancestors`): nodes of the same tree whose interval
contains the node's interval (`left` strictly smaller when excluding self),
ordered by `left` ascending. -/
def ancestorsQ (store : List StoredNode) (x : StoredNode) (includeSelf : Bool) :
    List StoredNode :=
  List.insertionSort byLeft (store.filter (fun a =>
    a.tree_id == x.tree_id &&
    (if includeSelf then decide (a.left ≤ x.left) else decide (a.left < x.left)) &&
    decide (x.right ≤ a.right)))

/-- Modelled from the spec (§4.4, the `get_descendants` library call made by
`get_team_volume` in `apps/limitless/serializers.py`): nodes of the same tree
whose `left` lies inside the node's interval, ordered by `left` ascending. -/
def descendantsQ (store : List StoredNode) (x : StoredNode)
    (includeSelf : Bool) : List StoredNode :=
  List.insertionSort byLeft (store.filter (fun y =>
    y.tree_id == x.tree_id &&
    decide ((if includeSelf then x.left else x.left + 1) ≤ y.left) &&
    decide (y.left ≤ (if includeSelf then x.right else x.right - 1))))

/-- The roots-endpoint order: descendant count (tree size) descending, id
ascending as tie-break (`order_by('-tree_size', 'original_id')` in
`apps/limitless/views.py` and `apps/boostyfi/views.py`). -/
def rootOrder (a b : StoredNode) : Prop :=
  descendantCount b < descendantCount a ∨
    (descendantCount a = descendantCount b ∧ a.id ≤ b.id)

instance : DecidableRel rootOrder := fun a b =>
  inferInstanceAs (Decidable (descendantCount b < descendantCount a ∨
    (descendantCount a = descendantCount b ∧ a.id ≤ b.id)))

instance : IsTotal StoredNode rootOrder := by
  constructor
  intro a b
  unfold rootOrder
  omega

instance : IsTrans StoredNode rootOrder := by
  constructor
  intro a b c
  unfold rootOrder
  omega

/-- The roots listing: nodes without a parent, ordered by tree size
descending then id ascending (`LimitlessUserViewSet.roots`,
`apps/limitless/views.py` lines 61-92). -/
def rootsQ (store : List StoredNode) : List StoredNode :=
  List.insertionSort rootOrder (store.filter (fun x => x.parent == none))

/-- Modelled from the spec (§8 "Descendant-count correctness"): the naive
recursive parent-pointer walk.  A row `b` is a strict descendant of the node
with id `i` exactly when `i` appears on the chain of resolved parent pointers
walked upward from `b`; the walk is bounded by `ns.length` steps, which
always suffices on cycle-free input. -/
def naiveDescendantCount (ns : List Node) (i : Nat) : Nat :=
  (ns.filter (fun b =>
    (upChain ns ns.length b).any (fun a => a.id == i))).length

/-- Deleting a node from the store: the row disappears and its children
become parentless, per `on_delete=SET_NULL` on the `parent` field of
`LimitlessUser` (`apps/limitless/models.py` lines 85-91). -/
def deleteNode (store : List StoredNode) (i : Nat) : List StoredNode :=
  (store.filter (fun x => x.id != i)).map (fun x =>
    if x.parent = some i then
      { x with parent := none }
    else x)

/-- Every non-null parent link resolves to a row of the store. -/
def parentResolved (store : List StoredNode) : Prop :=
  ∀ x ∈ store, ∀ p, x.parent = some p → ∃ y ∈ store, y.id = p

/-- The two platforms of the wallet-claim bookkeeping
(`apps/core/models.py`). -/
inductive Platform where
  | limitless : Platform
  | boostyfi : Platform
deriving DecidableEq, Repr

/-- One row of the seller-assignment table: which seller claimed which wallet
on which platform (`SellerAssignment` in `apps/core/models.py`). -/
structure SellerAssignment where
  seller : Nat
  platform : Platform
  target_user_id : Nat
deriving DecidableEq, Repr

/-- Number of assignment rows for one `(platform, target_user_id)` wallet
(`SellerAssignment.clean` and `ClaimWalletSerializer.validate` both count
these rows). -/
def assignmentCount (db : List SellerAssignment) (p : Platform) (t : Nat) :
    Nat :=
  (db.filter (fun a => decide (a.platform = p) && a.target_user_id == t)).length

/-- The identifying triple of an assignment row, unique by the
`unique_together` constraint of `SellerAssignment.Meta`. -/
def assignmentKey (a : SellerAssignment) : Nat × Platform × Nat :=
  (a.seller, a.platform, a.target_user_id)

/-- Claiming a wallet (`ClaimWalletSerializer` in `apps/core/serializers.py`
followed by `SellerAssignment.save` → `full_clean` → `clean` in
`apps/core/models.py`): validation checks that the target user exists and
that fewer than 5 sellers claimed the wallet; creation rejects a duplicate
claim by the same seller; the model's `clean` re-checks the 5-seller cap
before anything is written. -/
def claimWallet (limitlessUsers boostyfiUsers : List Nat)
    (db : List SellerAssignment) (seller : Nat) (p : Platform) (target : Nat) :
    Except String (List SellerAssignment) :=
  if ¬ (match p with
        | .limitless => limitlessUsers
        | .boostyfi => boostyfiUsers).contains target then
    .error "Target user not found"
  else if 5 ≤ assignmentCount db p target then
    .error "This wallet already has 5 sellers assigned. Maximum is 5."
  else if db.any (fun a =>
      a.seller == seller && decide (a.platform = p) &&
      a.target_user_id == target) then
    .error "You have already claimed this wallet"
  else if 5 ≤ assignmentCount db p target then
    .error "This wallet already has 5 sellers assigned. Maximum is 5."
  else
    .ok (⟨seller, p, target⟩ :: db)

/-! ### Lookup and parent-chain lemmas -/

theorem find_id_eq {ns : List Node} (hnd : (ns.map (fun n => n.id)).Nodup)
    {b : Node} (hb : b ∈ ns) {p : Nat} (hid : b.id = p) :
    ns.find? (fun m => m.id == p) = some b := by
  induction ns with
  | nil => cases hb
  | cons a l ih =>
    simp only [List.map_cons, List.nodup_cons] at hnd
    rcases List.mem_cons.mp hb with h | h
    · subst h
      exact List.find?_cons_of_pos _ (by simp [hid])
    · rw [List.find?_cons_of_neg, ih hnd.2 h]
      simp only [beq_iff_eq]
      intro he
      exact hnd.1 (by
        rw [he, ← hid]
        exact List.mem_map_of_mem (fun n => n.id) h)

theorem find_id_sound {ns : List Node} {p : Nat} {m : Node}
    (h : ns.find? (fun m => m.id == p) = some m) : m ∈ ns ∧ m.id = p :=
  ⟨List.mem_of_find?_eq_some h, by simpa using List.find?_some h⟩

theorem node_id_inj {ns : List Node} (hnd : (ns.map (fun n => n.id)).Nodup)
    {a b : Node} (ha : a ∈ ns) (hb : b ∈ ns) (h : a.id = b.id) : a = b :=
  List.inj_on_of_nodup_map hnd ha hb h

theorem stepUp_mem {ns : List Node} {x m : Node} (h : stepUp ns x = some m) :
    m ∈ ns := by
  unfold stepUp at h
  cases hp : x.parent_id with
  | none => rw [hp] at h; cases h
  | some p => rw [hp] at h; exact (find_id_sound h).1

theorem stepUp_parent {ns : List Node} {x m : Node}
    (h : stepUp ns x = some m) : x.parent_id = some m.id := by
  unfold stepUp at h
  cases hp : x.parent_id with
  | none => rw [hp] at h; cases h
  | some p =>
    rw [hp] at h
    have h2 : ns.find? (fun mm => mm.id == p) = some m := h
    rw [(find_id_sound h2).2]

theorem stepUp_of_child {ns : List Node}
    (hnd : (ns.map (fun n => n.id)).Nodup) {n c : Node} (hn : n ∈ ns)
    (hc : c.parent_id = some n.id) : stepUp ns c = some n := by
  unfold stepUp
  rw [hc]
  exact find_id_eq hnd hn rfl

theorem chainUpN_mem {ns : List Node} {b c : Node} {k : Nat} (hb : b ∈ ns)
    (h : chainUpN ns k b = some c) : c ∈ ns := by
  induction k generalizing b with
  | zero =>
    unfold chainUpN at h
    cases h
    exact hb
  | succ k ih =>
    unfold chainUpN at h
    cases hs : stepUp ns b with
    | none => rw [hs] at h; cases h
    | some m => rw [hs] at h; exact ih (stepUp_mem hs) h

theorem chainUpN_succ_none {ns : List Node} {x : Node}
    (h : stepUp ns x = none) (k : Nat) : chainUpN ns (k + 1) x = none := by
  conv_lhs => unfold chainUpN
  rw [h]

theorem chainUpN_succ_some {ns : List Node} {x m : Node}
    (h : stepUp ns x = some m) (k : Nat) :
    chainUpN ns (k + 1) x = chainUpN ns k m := by
  conv_lhs => unfold chainUpN
  rw [h]

theorem chainUpN_add (ns : List Node) (a b : Nat) (x : Node) :
    chainUpN ns (a + b) x = (chainUpN ns a x).bind (chainUpN ns b) := by
  induction a generalizing x with
  | zero => simp [chainUpN]
  | succ a ih =>
    rw [Nat.succ_add]
    cases hs : stepUp ns x with
    | none =>
      rw [chainUpN_succ_none hs, chainUpN_succ_none hs]
      simp
    | some m =>
      rw [chainUpN_succ_some hs, chainUpN_succ_some hs]
      exact ih m

theorem chainUpN_one (ns : List Node) (x : Node) :
    chainUpN ns 1 x = stepUp ns x := by
  cases h : stepUp ns x <;> simp [chainUpN, h]

theorem chainUpN_succ_last (ns : List Node) (k : Nat) (x : Node) :
    chainUpN ns (k + 1) x = (chainUpN ns k x).bind (stepUp ns) := by
  rw [chainUpN_add]
  cases chainUpN ns k x <;> simp [chainUpN_one]

theorem chainUpN_root {ns : List Node} {r : Node} (h : stepUp ns r = none)
    {k : Nat} (hk : 1 ≤ k) : chainUpN ns k r = none := by
  cases k with
  | zero => omega
  | succ k =>
    unfold chainUpN
    rw [h]

theorem rootHit_unique_le {ns : List Node} {x r r' : Node} {a b : Nat}
    (hab : a ≤ b)
    (ha : chainUpN ns a x = some r) (hb : chainUpN ns b x = some r')
    (hr : stepUp ns r = none) : a = b ∧ r = r' := by
  have hsplit : chainUpN ns (a + (b - a)) x =
      (chainUpN ns a x).bind (chainUpN ns (b - a)) := chainUpN_add ns a (b - a) x
  rw [show a + (b - a) = b by omega, hb, ha] at hsplit
  simp only [Option.some_bind] at hsplit
  by_cases hc : b - a = 0
  · have : a = b := by omega
    subst this
    rw [ha] at hb
    exact ⟨rfl, by injection hb⟩
  · rw [chainUpN_root hr (by omega)] at hsplit
    cases hsplit

theorem rootHit_unique {ns : List Node} {x r r' : Node} {a b : Nat}
    (ha : chainUpN ns a x = some r) (hb : chainUpN ns b x = some r')
    (hr : stepUp ns r = none) (hr' : stepUp ns r' = none) :
    a = b ∧ r = r' := by
  rcases Nat.le_total a b with h | h
  · exact rootHit_unique_le h ha hb hr
  · rcases rootHit_unique_le h hb ha hr' with ⟨h1, h2⟩
    exact ⟨h1.symm, h2.symm⟩

theorem reachesRoot_iff (ns : List Node) (f : Nat) (x : Node) :
    reachesRoot ns f x = true ↔
      ∃ k, k ≤ f ∧ ∃ r, chainUpN ns k x = some r ∧ stepUp ns r = none := by
  induction f generalizing x with
  | zero =>
    unfold reachesRoot
    constructor
    · intro h
      exact ⟨0, le_refl _, x, rfl, Option.isNone_iff_eq_none.mp h⟩
    · rintro ⟨k, hk, r, hr, hroot⟩
      interval_cases k
      unfold chainUpN at hr
      cases hr
      exact Option.isNone_iff_eq_none.mpr hroot
  | succ f ih =>
    unfold reachesRoot
    cases hs : stepUp ns x with
    | none =>
      simp only [true_iff]
      exact ⟨0, by omega, x, rfl, hs⟩
    | some m =>
      rw [ih m]
      constructor
      · rintro ⟨k, hk, r, hr, hroot⟩
        refine ⟨k + 1, by omega, r, ?_, hroot⟩
        unfold chainUpN
        rw [hs]
        exact hr
      · rintro ⟨k, hk, r, hr, hroot⟩
        cases k with
        | zero =>
          unfold chainUpN at hr
          cases hr
          rw [hs] at hroot
          cases hroot
        | succ k =>
          unfold chainUpN at hr
          rw [hs] at hr
          exact ⟨k, by omega, r, hr, hroot⟩

theorem chainUpN_mul_self {ns : List Node} {x : Node} {k : Nat}
    (h : chainUpN ns k x = some x) (t : Nat) :
    chainUpN ns (t * k) x = some x := by
  induction t with
  | zero => simp [chainUpN]
  | succ t ih =>
    rw [Nat.succ_mul, chainUpN_add, ih]
    exact h

theorem no_self_chain_of_reaches {ns : List Node} {x : Node} {f : Nat}
    (h : reachesRoot ns f x = true) {k : Nat} (hk : 1 ≤ k) :
    chainUpN ns k x ≠ some x := by
  intro hcyc
  rcases (reachesRoot_iff ns f x).mp h with ⟨j, _, r, hr, hroot⟩
  have hmul := chainUpN_mul_self hcyc (j + 1)
  have hgt : j < (j + 1) * k :=
    lt_of_lt_of_le (by omega) (Nat.le_mul_of_pos_right (j + 1) (by omega))
  have hsplit : chainUpN ns (j + ((j + 1) * k - j)) x =
      (chainUpN ns j x).bind (chainUpN ns ((j + 1) * k - j)) :=
    chainUpN_add ns j ((j + 1) * k - j) x
  rw [show j + ((j + 1) * k - j) = (j + 1) * k by omega, hmul, hr] at hsplit
  simp only [Option.some_bind] at hsplit
  rw [chainUpN_root hroot (by omega)] at hsplit
  cases hsplit

theorem hasCycle_false_reaches {ns : List Node} (h : hasCycle ns = false)
    {n : Node} (hn : n ∈ ns) : reachesRoot ns ns.length n = true := by
  unfold hasCycle at h
  have := List.any_eq_false.mp h n hn
  simpa using this

theorem no_self_chain {ns : List Node} (h : hasCycle ns = false) {n : Node}
    (hn : n ∈ ns) {k : Nat} (hk : 1 ≤ k) : chainUpN ns k n ≠ some n :=
  no_self_chain_of_reaches (hasCycle_false_reaches h hn) hk

theorem cycle_hasCycle {ns : List Node} {n : Node} (hn : n ∈ ns) {k : Nat}
    (hk : 1 ≤ k) (hc : chainUpN ns k n = some n) : hasCycle ns = true := by
  by_contra h
  exact no_self_chain (Bool.not_eq_true _ ▸ h) hn hk hc

theorem upChain_mem_iff (ns : List Node) (f : Nat) (b a : Node) :
    a ∈ upChain ns f b ↔
      ∃ k, 1 ≤ k ∧ k ≤ f ∧ chainUpN ns k b = some a := by
  induction f generalizing b with
  | zero =>
    unfold upChain
    simp only [List.not_mem_nil, false_iff]
    rintro ⟨k, hk1, hk2, _⟩
    omega
  | succ f ih =>
    unfold upChain
    cases hs : stepUp ns b with
    | none =>
      simp only [List.not_mem_nil, false_iff]
      rintro ⟨k, hk1, hk2, hc⟩
      rw [chainUpN_root hs hk1] at hc
      cases hc
    | some m =>
      simp only [List.mem_cons, ih m]
      constructor
      · rintro (rfl | ⟨k, hk1, hk2, hc⟩)
        · refine ⟨1, le_refl _, by omega, ?_⟩
          rw [chainUpN_one]
          exact hs
        · refine ⟨k + 1, by omega, by omega, ?_⟩
          unfold chainUpN
          rw [hs]
          exact hc
      · rintro ⟨k, hk1, hk2, hc⟩
        cases k with
        | zero => omega
        | succ k =>
          unfold chainUpN at hc
          rw [hs] at hc
          cases k with
          | zero =>
            left
            unfold chainUpN at hc
            exact (Option.some_inj.mp hc).symm
          | succ k => exact Or.inr ⟨k + 1, by omega, by omega, hc⟩

theorem eq_of_perm_of_sorted_sibLE {l₁ l₂ : List Node} (hp : l₁.Perm l₂)
    (hs₁ : List.Sorted sibLE l₁) (hs₂ : List.Sorted sibLE l₂)
    (hnd : (l₁.map (fun n => n.id)).Nodup) : l₁ = l₂ := by
  induction l₁ generalizing l₂ with
  | nil => exact hp.nil_eq
  | cons a t₁ ih =>
    cases l₂ with
    | nil => exact absurd hp.symm.nil_eq (by simp)
    | cons b t₂ =>
      have hab : a = b := by
        by_contra hne
        have hain : a ∈ b :: t₂ := hp.subset (List.mem_cons_self a t₁)
        have hbin : b ∈ a :: t₁ := hp.symm.subset (List.mem_cons_self b t₂)
        have ha2 : a ∈ t₂ := by
          rcases List.mem_cons.mp hain with h | h
          · exact absurd h hne
          · exact h
        have hb1 : b ∈ t₁ := by
          rcases List.mem_cons.mp hbin with h | h
          · exact absurd h.symm hne
          · exact h
        have r1 : sibLE a b := List.rel_of_sorted_cons hs₁ b hb1
        have r2 : sibLE b a := List.rel_of_sorted_cons hs₂ a ha2
        have hid : a.id = b.id := by
          unfold sibLE at r1 r2
          omega
        exact hne (node_id_inj hnd (List.mem_cons_self a t₁)
          (List.mem_cons_of_mem a hb1) hid)
      subst hab
      have htail := ih hp.cons_inv hs₁.of_cons hs₂.of_cons
        (by simpa using (List.nodup_cons.mp (by simpa using hnd)).2)
      rw [htail]

/-! ### Structural lemmas about the numbering walk -/

theorem numberNode_zero (ns : List Node) (n : Node) (tid c d : Nat) :
    numberNode ns 0 n tid c d = ([mkEntry ns n tid c (c + 1) d], c + 2) := rfl

theorem numberNode_succ (ns : List Node) (f : Nat) (n : Node) (tid c d : Nat) :
    numberNode ns (f + 1) n tid c d =
      (mkEntry ns n tid c
          (numberKids (fun m => numberNode ns f m)
            (childrenOf ns n.id) tid (c + 1) (d + 1)).2 d ::
        (numberKids (fun m => numberNode ns f m)
          (childrenOf ns n.id) tid (c + 1) (d + 1)).1,
       (numberKids (fun m => numberNode ns f m)
         (childrenOf ns n.id) tid (c + 1) (d + 1)).2 + 1) := rfl

theorem numberKids_cons (step : Node → Nat → Nat → Nat → List StoredNode × Nat)
    (x : Node) (xs : List Node) (tid c d : Nat) :
    numberKids step (x :: xs) tid c d =
      ((step x tid c d).1 ++
        (numberKids step xs tid (step x tid c d).2 d).1,
       (numberKids step xs tid (step x tid c d).2 d).2) := rfl

theorem childrenOf_mem {ns : List Node} {p : Nat} {m : Node}
    (h : m ∈ childrenOf ns p) : m ∈ ns ∧ m.parent_id = some p := by
  unfold childrenOf at h
  rw [List.mem_insertionSort] at h
  have := List.mem_filter.mp h
  exact ⟨this.1, by simpa using this.2⟩

theorem childrenOf_nodup {ns : List Node} (p : Nat)
    (hnd : (ns.map (fun n => n.id)).Nodup) :
    ((childrenOf ns p).map (fun n => n.id)).Nodup := by
  unfold childrenOf
  have hperm := (List.perm_insertionSort sibLE
    (ns.filter (fun n => n.parent_id == some p))).map (fun n => n.id)
  refine hperm.nodup_iff.mpr ?_
  exact ((List.filter_sublist ns).map (fun n => n.id)).nodup hnd

theorem rootNodes_mem {ns : List Node} {r : Node} (h : r ∈ rootNodes ns) :
    r ∈ ns ∧ stepUp ns r = none := by
  unfold rootNodes at h
  rw [List.mem_insertionSort] at h
  have := List.mem_filter.mp h
  exact ⟨this.1, by simpa using this.2⟩

theorem rootNodes_mem_of {ns : List Node} {r : Node} (hr : r ∈ ns)
    (hroot : stepUp ns r = none) : r ∈ rootNodes ns := by
  unfold rootNodes
  rw [List.mem_insertionSort]
  exact List.mem_filter.mpr ⟨hr, by simp [hroot]⟩

theorem rootNodes_nodup {ns : List Node}
    (hnd : (ns.map (fun n => n.id)).Nodup) :
    ((rootNodes ns).map (fun n => n.id)).Nodup := by
  unfold rootNodes
  have hperm := (List.perm_insertionSort sibLE
    (ns.filter (fun n => (stepUp ns n).isNone))).map (fun n => n.id)
  refine hperm.nodup_iff.mpr ?_
  exact ((List.filter_sublist ns).map (fun n => n.id)).nodup hnd

theorem numberKids_snd
    (step : Node → Nat → Nat → Nat → List StoredNode × Nat)
    (hsnd : ∀ m tid c d,
      (step m tid c d).2 = c + 2 * (step m tid c d).1.length) :
    ∀ (l : List Node) (tid c d : Nat),
      (numberKids step l tid c d).2 =
        c + 2 * (numberKids step l tid c d).1.length := by
  intro l
  induction l with
  | nil => intro tid c d; simp [numberKids]
  | cons x xs ih =>
    intro tid c d
    rw [numberKids_cons]
    simp only [List.length_append]
    rw [ih tid _ d, hsnd x tid c d]
    ring

theorem numberNode_snd (ns : List Node) :
    ∀ (f : Nat) (n : Node) (tid c d : Nat),
      (numberNode ns f n tid c d).2 =
        c + 2 * (numberNode ns f n tid c d).1.length := by
  intro f
  induction f with
  | zero => intro n tid c d; simp [numberNode_zero]
  | succ f ih =>
    intro n tid c d
    rw [numberNode_succ]
    simp only [List.length_cons]
    rw [numberKids_snd (fun m => numberNode ns f m)
      (fun m tid c d => ih m tid c d) (childrenOf ns n.id) tid (c + 1) (d + 1)]
    ring

theorem numberKids_mem_split
    (step : Node → Nat → Nat → Nat → List StoredNode × Nat) :
    ∀ (l : List Node) (tid c d : Nat) (x : StoredNode),
      x ∈ (numberKids step l tid c d).1 →
        ∃ m ∈ l, ∃ c2, x ∈ (step m tid c2 d).1 ∧
          (step m tid c2 d).1.Sublist (numberKids step l tid c d).1 := by
  intro l
  induction l with
  | nil => intro tid c d x h; simp [numberKids] at h
  | cons a xs ih =>
    intro tid c d x h
    rw [numberKids_cons] at h
    rcases List.mem_append.mp h with h | h
    · refine ⟨a, List.mem_cons_self a xs, c, h, ?_⟩
      rw [numberKids_cons]
      exact List.sublist_append_left _ _
    · rcases ih tid _ d x h with ⟨m, hm, c2, hx, hsub⟩
      refine ⟨m, List.mem_cons_of_mem a hm, c2, hx, ?_⟩
      rw [numberKids_cons]
      exact hsub.trans (List.sublist_append_right _ _)

theorem numberKids_bounds
    (step : Node → Nat → Nat → Nat → List StoredNode × Nat)
    (hsnd : ∀ m tid c d,
      (step m tid c d).2 = c + 2 * (step m tid c d).1.length)
    (hb : ∀ m tid c d, ∀ x ∈ (step m tid c d).1,
      c ≤ x.left ∧ x.left < x.right ∧ x.right < (step m tid c d).2 ∧
        x.tree_id = tid) :
    ∀ (l : List Node) (tid c d : Nat), ∀ x ∈ (numberKids step l tid c d).1,
      c ≤ x.left ∧ x.left < x.right ∧
        x.right < (numberKids step l tid c d).2 ∧ x.tree_id = tid := by
  intro l
  induction l with
  | nil => intro tid c d x h; simp [numberKids] at h
  | cons a xs ih =>
    intro tid c d x h
    rw [numberKids_cons] at h
    rw [numberKids_cons]
    have hmono : (step a tid c d).2 ≤
        (numberKids step xs tid (step a tid c d).2 d).2 := by
      rw [numberKids_snd step hsnd]
      omega
    have hc2 : c ≤ (step a tid c d).2 := by
      rw [hsnd]
      omega
    rcases List.mem_append.mp h with h | h
    · rcases hb a tid c d x h with ⟨h1, h2, h3, h4⟩
      exact ⟨h1, h2, by omega, h4⟩
    · rcases ih tid _ d x h with ⟨h1, h2, h3, h4⟩
      exact ⟨by omega, h2, h3, h4⟩

theorem numberNode_bounds (ns : List Node) :
    ∀ (f : Nat) (n : Node) (tid c d : Nat),
      ∀ x ∈ (numberNode ns f n tid c d).1,
      c ≤ x.left ∧ x.left < x.right ∧
        x.right < (numberNode ns f n tid c d).2 ∧ x.tree_id = tid := by
  intro f
  induction f with
  | zero =>
    intro n tid c d x h
    simp only [numberNode_zero, List.mem_singleton] at h
    subst h
    refine ⟨le_refl _, ?_, ?_, rfl⟩ <;> simp [mkEntry, numberNode_zero]
  | succ f ih =>
    intro n tid c d x h
    rw [numberNode_succ] at h
    rw [numberNode_succ]
    have hksnd := numberKids_snd (fun m => numberNode ns f m)
      (fun m tid c d => numberNode_snd ns f m tid c d)
      (childrenOf ns n.id) tid (c + 1) (d + 1)
    rcases List.mem_cons.mp h with h | h
    · subst h
      refine ⟨le_refl _, ?_, ?_, rfl⟩ <;> simp [mkEntry] <;> omega
    · rcases numberKids_bounds (fun m => numberNode ns f m)
        (fun m tid c d => numberNode_snd ns f m tid c d)
        (fun m tid c d => ih m tid c d)
        (childrenOf ns n.id) tid (c + 1) (d + 1) x h with ⟨h1, h2, h3, h4⟩
      exact ⟨by omega, h2, by simp [mkEntry]; omega, h4⟩

/-- The filter predicate picking entries strictly inside the interval of
`x`. -/
def insideB (x : StoredNode) : StoredNode → Bool :=
  fun y => decide (x.left < y.left) && decide (y.right < x.right)

theorem numberKids_width
    (step : Node → Nat → Nat → Nat → List StoredNode × Nat)
    (hsnd : ∀ m tid c d,
      (step m tid c d).2 = c + 2 * (step m tid c d).1.length)
    (hb : ∀ m tid c d, ∀ x ∈ (step m tid c d).1,
      c ≤ x.left ∧ x.left < x.right ∧ x.right < (step m tid c d).2 ∧
        x.tree_id = tid)
    (hw : ∀ m tid c d, ∀ x ∈ (step m tid c d).1,
      x.right = x.left +
        2 * ((step m tid c d).1.filter (insideB x)).length + 1) :
    ∀ (l : List Node) (tid c d : Nat), ∀ x ∈ (numberKids step l tid c d).1,
      x.right = x.left +
        2 * ((numberKids step l tid c d).1.filter (insideB x)).length + 1 := by
  intro l
  induction l with
  | nil => intro tid c d x h; simp [numberKids] at h
  | cons a xs ih =>
    intro tid c d x h
    rw [numberKids_cons] at h
    rw [numberKids_cons]
    simp only [List.filter_append, List.length_append]
    rcases List.mem_append.mp h with h | h
    · have hx := hb a tid c d x h
      have hrest : ((numberKids step xs tid (step a tid c d).2 d).1.filter
          (insideB x)) = [] := by
        rw [List.filter_eq_nil_iff]
        intro y hy
        have hy2 := numberKids_bounds step hsnd hb xs tid _ d y hy
        unfold insideB
        simp only [Bool.and_eq_true, decide_eq_true_eq, not_and]
        intro _
        omega
      rw [hrest]
      simpa using hw a tid c d x h
    · have hx := numberKids_bounds step hsnd hb xs tid _ d x h
      have hhead : ((step a tid c d).1.filter (insideB x)) = [] := by
        rw [List.filter_eq_nil_iff]
        intro y hy
        have hy2 := hb a tid c d y hy
        unfold insideB
        simp only [Bool.and_eq_true, decide_eq_true_eq, not_and]
        intro hlt
        omega
      rw [hhead]
      simpa using ih tid _ d x h

theorem numberNode_width (ns : List Node) :
    ∀ (f : Nat) (n : Node) (tid c d : Nat),
      ∀ x ∈ (numberNode ns f n tid c d).1,
      x.right = x.left +
        2 * ((numberNode ns f n tid c d).1.filter (insideB x)).length + 1 := by
  intro f
  induction f with
  | zero =>
    intro n tid c d x h
    simp only [numberNode_zero, List.mem_singleton] at h
    subst h
    simp [mkEntry, numberNode_zero, List.filter, insideB]
  | succ f ih =>
    intro n tid c d x h
    rw [numberNode_succ] at h
    rw [numberNode_succ]
    have hksnd := numberKids_snd (fun m => numberNode ns f m)
      (fun m tid c d => numberNode_snd ns f m tid c d)
      (childrenOf ns n.id) tid (c + 1) (d + 1)
    rcases List.mem_cons.mp h with h | h
    · subst h
      rw [List.filter_cons]
      have hself : insideB (mkEntry ns n tid c
          (numberKids (fun m => numberNode ns f m)
            (childrenOf ns n.id) tid (c + 1) (d + 1)).2 d)
          (mkEntry ns n tid c
            (numberKids (fun m => numberNode ns f m)
              (childrenOf ns n.id) tid (c + 1) (d + 1)).2 d) = false := by
        unfold insideB
        simp [mkEntry]
      rw [hself]
      simp only [Bool.false_eq_true, if_false]
      have hall : ((numberKids (fun m => numberNode ns f m)
          (childrenOf ns n.id) tid (c + 1) (d + 1)).1.filter
            (insideB (mkEntry ns n tid c
              (numberKids (fun m => numberNode ns f m)
                (childrenOf ns n.id) tid (c + 1) (d + 1)).2 d))) =
          (numberKids (fun m => numberNode ns f m)
            (childrenOf ns n.id) tid (c + 1) (d + 1)).1 := by
        rw [List.filter_eq_self]
        intro y hy
        have hy2 := numberKids_bounds (fun m => numberNode ns f m)
          (fun m tid c d => numberNode_snd ns f m tid c d)
          (fun m tid c d => numberNode_bounds ns f m tid c d)
          (childrenOf ns n.id) tid (c + 1) (d + 1) y hy
        unfold insideB
        simp only [Bool.and_eq_true, decide_eq_true_eq, mkEntry]
        constructor
        · omega
        · omega
      rw [hall]
      simp only [mkEntry]
      omega
    · rw [List.filter_cons]
      have hx := numberKids_bounds (fun m => numberNode ns f m)
        (fun m tid c d => numberNode_snd ns f m tid c d)
        (fun m tid c d => numberNode_bounds ns f m tid c d)
        (childrenOf ns n.id) tid (c + 1) (d + 1) x h
      have hroot : insideB x (mkEntry ns n tid c
          (numberKids (fun m => numberNode ns f m)
            (childrenOf ns n.id) tid (c + 1) (d + 1)).2 d) = false := by
        unfold insideB
        simp only [Bool.and_eq_true, decide_eq_true_eq, mkEntry,
          Bool.and_eq_false_iff, decide_eq_false_iff_not, not_lt]
        left
        omega
      rw [hroot]
      simp only [Bool.false_eq_true, if_false]
      exact numberKids_width (fun m => numberNode ns f m)
        (fun m tid c d => numberNode_snd ns f m tid c d)
        (fun m tid c d => numberNode_bounds ns f m tid c d)
        (fun m tid c d => ih m tid c d)
        (childrenOf ns n.id) tid (c + 1) (d + 1) x h

/-- The nesting relation in pre-order position: the earlier entry has the
smaller `left`, and the later interval is either strictly inside or wholly to
the right. -/
def nestRel (x y : StoredNode) : Prop :=
  x.left < y.left ∧ (y.right < x.right ∨ x.right < y.left)

theorem numberKids_pairwise
    (step : Node → Nat → Nat → Nat → List StoredNode × Nat)
    (hsnd : ∀ m tid c d,
      (step m tid c d).2 = c + 2 * (step m tid c d).1.length)
    (hb : ∀ m tid c d, ∀ x ∈ (step m tid c d).1,
      c ≤ x.left ∧ x.left < x.right ∧ x.right < (step m tid c d).2 ∧
        x.tree_id = tid)
    (hp : ∀ m tid c d, List.Pairwise nestRel (step m tid c d).1) :
    ∀ (l : List Node) (tid c d : Nat),
      List.Pairwise nestRel (numberKids step l tid c d).1 := by
  intro l
  induction l with
  | nil => intro tid c d; simp [numberKids]
  | cons a xs ih =>
    intro tid c d
    rw [numberKids_cons]
    rw [List.pairwise_append]
    refine ⟨hp a tid c d, ih tid _ d, ?_⟩
    intro x hx y hy
    have hx2 := hb a tid c d x hx
    have hy2 := numberKids_bounds step hsnd hb xs tid _ d y hy
    unfold nestRel
    omega

theorem numberNode_pairwise (ns : List Node) :
    ∀ (f : Nat) (n : Node) (tid c d : Nat),
      List.Pairwise nestRel (numberNode ns f n tid c d).1 := by
  intro f
  induction f with
  | zero => intro n tid c d; simp [numberNode_zero]
  | succ f ih =>
    intro n tid c d
    rw [numberNode_succ]
    rw [List.pairwise_cons]
    constructor
    · intro y hy
      have hy2 := numberKids_bounds (fun m => numberNode ns f m)
        (fun m tid c d => numberNode_snd ns f m tid c d)
        (fun m tid c d => numberNode_bounds ns f m tid c d)
        (childrenOf ns n.id) tid (c + 1) (d + 1) y hy
      unfold nestRel
      simp only [mkEntry]
      omega
    · exact numberKids_pairwise (fun m => numberNode ns f m)
        (fun m tid c d => numberNode_snd ns f m tid c d)
        (fun m tid c d => numberNode_bounds ns f m tid c d)
        (fun m tid c d => ih m tid c d)
        (childrenOf ns n.id) tid (c + 1) (d + 1)

/-- Every numbered entry of a tree walk stems from an input row whose parent
chain reaches the tree root, and its depth is the chain length. -/
theorem numberNode_src (ns : List Node)
    (hnd : (ns.map (fun n => n.id)).Nodup) :
    ∀ (f : Nat) (n : Node), n ∈ ns → ∀ (tid c d : Nat),
      ∀ x ∈ (numberNode ns f n tid c d).1,
      ∃ b k, b ∈ ns ∧ k ≤ f ∧ chainUpN ns k b = some n ∧
        x.id = b.id ∧ x.sort_key = b.sort_key ∧
        x.parent = (stepUp ns b).map (fun z => z.id) ∧ x.depth = d + k := by
  intro f
  induction f with
  | zero =>
    intro n hn tid c d x h
    simp only [numberNode_zero, List.mem_singleton] at h
    subst h
    exact ⟨n, 0, hn, le_refl _, rfl, rfl, rfl, rfl, by simp [mkEntry]⟩
  | succ f ih =>
    intro n hn tid c d x h
    rw [numberNode_succ] at h
    rcases List.mem_cons.mp h with h | h
    · subst h
      exact ⟨n, 0, hn, by omega, rfl, rfl, rfl, rfl, by simp [mkEntry]⟩
    · rcases numberKids_mem_split (fun m => numberNode ns f m)
        (childrenOf ns n.id) tid (c + 1) (d + 1) x h with ⟨m, hm, c2, hx2, _⟩
      rcases childrenOf_mem hm with ⟨hmns, hmp⟩
      rcases ih m hmns tid c2 (d + 1) x hx2 with
        ⟨b, k, hb, hk, hchain, hid, hkey, hpar, hdep⟩
      have hstep : stepUp ns m = some n := stepUp_of_child hnd hn hmp
      refine ⟨b, k + 1, hb, by omega, ?_, hid, hkey, hpar, by omega⟩
      rw [chainUpN_succ_last, hchain]
      simpa using hstep

theorem numberKids_complete
    (step : Node → Nat → Nat → Nat → List StoredNode × Nat)
    (Q : StoredNode → Prop) {m : Node}
    (hm : ∀ tid c d, ∃ x ∈ (step m tid c d).1, Q x) :
    ∀ (l : List Node), m ∈ l → ∀ (tid c d : Nat),
      ∃ x ∈ (numberKids step l tid c d).1, Q x := by
  intro l
  induction l with
  | nil => intro h; cases h
  | cons a xs ih =>
    intro hmem tid c d
    rw [numberKids_cons]
    rcases List.mem_cons.mp hmem with h | h
    · subst h
      rcases hm tid c d with ⟨x, hx, hq⟩
      exact ⟨x, List.mem_append_left _ hx, hq⟩
    · rcases ih h tid _ d with ⟨x, hx, hq⟩
      exact ⟨x, List.mem_append_right _ hx, hq⟩

/-- Every input row whose parent chain reaches the tree root within the fuel
bound contributes an entry to the numbered tree. -/
theorem numberNode_complete (ns : List Node)
    (hnd : (ns.map (fun n => n.id)).Nodup) :
    ∀ (f : Nat) (n : Node), n ∈ ns → ∀ (b : Node) (k : Nat), b ∈ ns →
      k ≤ f → chainUpN ns k b = some n → ∀ (tid c d : Nat),
      ∃ x ∈ (numberNode ns f n tid c d).1, x.id = b.id := by
  intro f
  induction f with
  | zero =>
    intro n hn b k hb hk hchain tid c d
    interval_cases k
    unfold chainUpN at hchain
    refine ⟨mkEntry ns n tid c (c + 1) d, ?_, ?_⟩
    · simp [numberNode_zero]
    · simp only [mkEntry]
      injection hchain with hbn
      rw [hbn]
  | succ f ih =>
    intro n hn b k hb hk hchain tid c d
    cases k with
    | zero =>
      unfold chainUpN at hchain
      rw [numberNode_succ]
      refine ⟨_, List.mem_cons_self _ _, ?_⟩
      simp only [mkEntry]
      injection hchain with hbn
      rw [hbn]
    | succ k =>
      rw [chainUpN_succ_last] at hchain
      cases hc : chainUpN ns k b with
      | none =>
        rw [hc] at hchain
        cases hchain
      | some cnode =>
        rw [hc] at hchain
        simp only [Option.some_bind] at hchain
        have hcmem : cnode ∈ ns := chainUpN_mem hb hc
        have hcp : cnode.parent_id = some n.id := stepUp_parent hchain
        have hcchild : cnode ∈ childrenOf ns n.id := by
          unfold childrenOf
          rw [List.mem_insertionSort]
          exact List.mem_filter.mpr ⟨hcmem, by simp [hcp]⟩
        have hkids := numberKids_complete (fun m => numberNode ns f m)
          (fun x => x.id = b.id)
          (fun tid c d => ih cnode hcmem b k hb (by omega) hc tid c d)
          (childrenOf ns n.id) hcchild tid (c + 1) (d + 1)
        rcases hkids with ⟨x, hx, hq⟩
        rw [numberNode_succ]
        exact ⟨x, List.mem_cons_of_mem _ hx, hq⟩

theorem chain_two_children {ns : List Node} {n0 c1 c2 b : Node} {k1 k2 : Nat}
    (hs1 : stepUp ns c1 = some n0) (hs2 : stepUp ns c2 = some n0)
    (h1 : chainUpN ns k1 b = some c1) (h2 : chainUpN ns k2 b = some c2)
    (hcyc : ∀ k, 1 ≤ k → chainUpN ns k n0 ≠ some n0) :
    c1 = c2 ∧ k1 = k2 := by
  have main : ∀ {d1 d2 : Node} {j1 j2 : Nat}, j1 ≤ j2 →
      stepUp ns d1 = some n0 → stepUp ns d2 = some n0 →
      chainUpN ns j1 b = some d1 → chainUpN ns j2 b = some d2 →
      d1 = d2 ∧ j1 = j2 := by
    intro d1 d2 j1 j2 hle hu1 hu2 hc1 hc2
    have hsplit : chainUpN ns (j1 + (j2 - j1)) b =
        (chainUpN ns j1 b).bind (chainUpN ns (j2 - j1)) := chainUpN_add ns _ _ b
    rw [show j1 + (j2 - j1) = j2 by omega, hc2, hc1] at hsplit
    simp only [Option.some_bind] at hsplit
    by_cases hz : j2 - j1 = 0
    · have : j1 = j2 := by omega
      subst this
      rw [hc1] at hc2
      exact ⟨by injection hc2, rfl⟩
    · exfalso
      have hstep1 : chainUpN ns ((j2 - j1) + 1) d1 = some n0 := by
        rw [chainUpN_succ_last, ← hsplit]
        simpa using hu2
      have hstep2 : chainUpN ns ((j2 - j1) + 1) d1 =
          chainUpN ns (j2 - j1) n0 := by
        rw [show (j2 - j1) + 1 = 1 + (j2 - j1) by omega, chainUpN_add,
          chainUpN_one, hu1]
        simp
      rw [hstep2] at hstep1
      exact hcyc (j2 - j1) (by omega) hstep1
  rcases Nat.le_total k1 k2 with h | h
  · exact main h hs1 hs2 h1 h2
  · rcases main h hs2 hs1 h2 h1 with ⟨ha, hb2⟩
    exact ⟨ha.symm, hb2.symm⟩

theorem numberKids_nodup (ns : List Node)
    (step : Node → Nat → Nat → Nat → List StoredNode × Nat)
    (hnd : (ns.map (fun n => n.id)).Nodup) (n0 : Node) (fb : Nat)
    (hcyc : ∀ k, 1 ≤ k → chainUpN ns k n0 ≠ some n0) :
    ∀ (l : List Node), (l.map (fun n => n.id)).Nodup →
      (∀ m ∈ l, stepUp ns m = some n0) →
      (∀ m ∈ l, ∀ tid c d,
        (((step m tid c d).1).map (fun x => x.id)).Nodup) →
      (∀ m ∈ l, ∀ tid c d, ∀ x ∈ (step m tid c d).1,
        ∃ b k, b ∈ ns ∧ k ≤ fb ∧ chainUpN ns k b = some m ∧ x.id = b.id) →
      ∀ (tid c d : Nat),
        (((numberKids step l tid c d).1).map (fun x => x.id)).Nodup := by
  intro l
  induction l with
  | nil => intro _ _ _ _ tid c d; simp [numberKids]
  | cons a xs ih =>
    intro hlnd hup hnodup hsrc tid c d
    rw [numberKids_cons]
    rw [List.map_append, List.nodup_append]
    simp only [List.map_cons, List.nodup_cons] at hlnd
    refine ⟨hnodup a (List.mem_cons_self a xs) tid c d,
      ih hlnd.2 (fun m hm => hup m (List.mem_cons_of_mem a hm))
        (fun m hm => hnodup m (List.mem_cons_of_mem a hm))
        (fun m hm => hsrc m (List.mem_cons_of_mem a hm)) tid _ d, ?_⟩
    intro i hi1 hi2
    rcases List.mem_map.mp hi1 with ⟨x1, hx1, hidx1⟩
    rcases List.mem_map.mp hi2 with ⟨x2, hx2, hidx2⟩
    rcases hsrc a (List.mem_cons_self a xs) tid c d x1 hx1 with
      ⟨b1, k1, hb1, _, hch1, hid1⟩
    rcases numberKids_mem_split step xs tid _ d x2 hx2 with
      ⟨m2, hm2, c2, hx2b, _⟩
    rcases hsrc m2 (List.mem_cons_of_mem a hm2) tid c2 d x2 hx2b with
      ⟨b2, k2, hb2, _, hch2, hid2⟩
    have hbeq : b1 = b2 := by
      apply node_id_inj hnd hb1 hb2
      rw [← hid1, ← hid2, hidx1, hidx2]
    subst hbeq
    have := chain_two_children (hup a (List.mem_cons_self a xs))
      (hup m2 (List.mem_cons_of_mem a hm2)) hch1 hch2 hcyc
    apply hlnd.1
    rw [this.1]
    exact List.mem_map_of_mem (fun n => n.id) hm2

/-- The ids of a numbered tree are distinct (on cycle-free input with
distinct ids). -/
theorem numberNode_nodup (ns : List Node)
    (hnd : (ns.map (fun n => n.id)).Nodup) (hnc : hasCycle ns = false) :
    ∀ (f : Nat) (n : Node), n ∈ ns → ∀ (tid c d : Nat),
      (((numberNode ns f n tid c d).1).map (fun x => x.id)).Nodup := by
  intro f
  induction f with
  | zero => intro n hn tid c d; simp [numberNode_zero]
  | succ f ih =>
    intro n hn tid c d
    rw [numberNode_succ]
    rw [List.map_cons, List.nodup_cons]
    constructor
    · intro hmem
      rcases List.mem_map.mp hmem with ⟨x, hx, hidx⟩
      rcases numberKids_mem_split (fun m => numberNode ns f m)
        (childrenOf ns n.id) tid (c + 1) (d + 1) x hx with ⟨m, hm, c2, hx2, _⟩
      rcases childrenOf_mem hm with ⟨hmns, hmp⟩
      rcases numberNode_src ns hnd f m hmns tid c2 (d + 1) x hx2 with
        ⟨b, k, hb, _, hch, hid, _, _, _⟩
      have hbn : b = n := by
        apply node_id_inj hnd hb hn
        rw [← hid, hidx]
        simp [mkEntry]
      have hstep : stepUp ns m = some n := stepUp_of_child hnd hn hmp
      have hcyc2 : chainUpN ns (k + 1) b = some b := by
        rw [chainUpN_succ_last, hch]
        simp [hstep, hbn]
      exact no_self_chain hnc hb (by omega) hcyc2
    · have hsrc : ∀ m ∈ childrenOf ns n.id, ∀ tid c d,
          ∀ x ∈ (numberNode ns f m tid c d).1,
          ∃ b k, b ∈ ns ∧ k ≤ f ∧ chainUpN ns k b = some m ∧
            x.id = b.id := by
        intro m hm tid c d x hx
        rcases numberNode_src ns hnd f m (childrenOf_mem hm).1 tid c d x hx
          with ⟨b, k, hb, hk, hch, hid, _, _, _⟩
        exact ⟨b, k, hb, hk, hch, hid⟩
      exact numberKids_nodup ns (fun m => numberNode ns f m) hnd n f
        (fun k hk => no_self_chain hnc hn hk)
        (childrenOf ns n.id) (childrenOf_nodup n.id hnd)
        (fun m hm => stepUp_of_child hnd hn (childrenOf_mem hm).2)
        (fun m hm tid c d => ih m (childrenOf_mem hm).1 tid c d)
        hsrc tid (c + 1) (d + 1)

theorem numberKids_subtree (ns : List Node)
    (step : Node → Nat → Nat → Nat → List StoredNode × Nat) (F : Nat) :
    ∀ (l : List Node),
      (∀ m ∈ l, ∀ (tid c d : Nat), ∀ x ∈ (step m tid c d).1,
        ∃ j fp np tl, F = fp + j ∧ np ∈ ns ∧
          (numberNode ns fp np tid x.left (d + j)).1 = x :: tl ∧
          (numberNode ns fp np tid x.left (d + j)).1.Sublist
            (step m tid c d).1) →
      ∀ (tid c d : Nat), ∀ x ∈ (numberKids step l tid c d).1,
        ∃ j fp np tl, F = fp + j ∧ np ∈ ns ∧
          (numberNode ns fp np tid x.left (d + j)).1 = x :: tl ∧
          (numberNode ns fp np tid x.left (d + j)).1.Sublist
            (numberKids step l tid c d).1 := by
  intro l
  induction l with
  | nil => intro _ tid c d x h; simp [numberKids] at h
  | cons a xs ih =>
    intro hstep tid c d x h
    rw [numberKids_cons] at h
    rcases List.mem_append.mp h with h | h
    · rcases hstep a (List.mem_cons_self a xs) tid c d x h with
        ⟨j, fp, np, tl, hF, hnp, heq, hsub⟩
      refine ⟨j, fp, np, tl, hF, hnp, heq, ?_⟩
      rw [numberKids_cons]
      exact hsub.trans (List.sublist_append_left _ _)
    · rcases ih (fun m hm => hstep m (List.mem_cons_of_mem a hm)) tid _ d x h
        with ⟨j, fp, np, tl, hF, hnp, heq, hsub⟩
      refine ⟨j, fp, np, tl, hF, hnp, heq, ?_⟩
      rw [numberKids_cons]
      exact hsub.trans (List.sublist_append_right _ _)

/-- Every entry of a numbered tree is the head (root) of a numbered subtree
occurring inside the tree output, numbered with the remaining fuel at the
entry's own `left` counter and depth. -/
theorem numberNode_subtree (ns : List Node) :
    ∀ (f : Nat) (n : Node), n ∈ ns → ∀ (tid c d : Nat),
      ∀ x ∈ (numberNode ns f n tid c d).1,
      ∃ j fp np tl, f = fp + j ∧ np ∈ ns ∧
        (numberNode ns fp np tid x.left (d + j)).1 = x :: tl ∧
        (numberNode ns fp np tid x.left (d + j)).1.Sublist
          (numberNode ns f n tid c d).1 := by
  intro f
  induction f with
  | zero =>
    intro n hn tid c d x h
    simp only [numberNode_zero, List.mem_singleton] at h
    refine ⟨0, 0, n, [], rfl, hn, ?_, ?_⟩
    · rw [numberNode_zero]
      subst h
      simp [mkEntry]
    · rw [numberNode_zero]
      subst h
      simp [mkEntry, numberNode_zero]
  | succ f ih =>
    intro n hn tid c d x h
    rw [numberNode_succ] at h
    rcases List.mem_cons.mp h with h | h
    · subst h
      exact ⟨0, f + 1, n,
        (numberKids (fun m => numberNode ns f m)
          (childrenOf ns n.id) tid (c + 1) (d + 1)).1,
        rfl, hn, rfl, List.Sublist.refl _⟩
    · have hkids := numberKids_subtree ns (fun m => numberNode ns f m) f
        (childrenOf ns n.id)
        (fun m hm tid c d x hx => ih m (childrenOf_mem hm).1 tid c d x hx)
        tid (c + 1) (d + 1) x h
      rcases hkids with ⟨j, fp, np, tl, hF, hnp, heq, hsub⟩
      refine ⟨j + 1, fp, np, tl, by omega, hnp, ?_, ?_⟩
      · rw [show d + (j + 1) = (d + 1) + j by omega]
        exact heq
      · rw [show d + (j + 1) = (d + 1) + j by omega, numberNode_succ]
        exact hsub.cons _

/-! ### Store-level lemmas: the forest as a list of numbered tree blocks -/

theorem numberRoots_cons (ns : List Node) (r : Node) (rs : List Node)
    (tid : Nat) :
    numberRoots ns (r :: rs) tid =
      (numberNode ns ns.length r tid 1 0).1 ++ numberRoots ns rs (tid + 1) :=
  rfl

theorem numberRoots_tid_lb (ns : List Node) :
    ∀ (rs : List Node) (tid : Nat), ∀ x ∈ numberRoots ns rs tid,
      tid ≤ x.tree_id := by
  intro rs
  induction rs with
  | nil => intro tid x h; simp [numberRoots] at h
  | cons r rs ih =>
    intro tid x h
    rw [numberRoots_cons] at h
    rcases List.mem_append.mp h with h | h
    · exact le_of_eq
        (numberNode_bounds ns ns.length r tid 1 0 x h).2.2.2.symm
    · have := ih (tid + 1) x h
      omega

theorem numberRoots_split (ns : List Node) :
    ∀ (rs : List Node) (tid : Nat), ∀ x ∈ numberRoots ns rs tid,
      ∃ r tid2, r ∈ rs ∧ tid ≤ tid2 ∧
        x ∈ (numberNode ns ns.length r tid2 1 0).1 ∧
        (numberNode ns ns.length r tid2 1 0).1.Sublist
          (numberRoots ns rs tid) := by
  intro rs
  induction rs with
  | nil => intro tid x h; simp [numberRoots] at h
  | cons r rs ih =>
    intro tid x h
    rw [numberRoots_cons] at h
    rcases List.mem_append.mp h with h | h
    · refine ⟨r, tid, List.mem_cons_self r rs, le_refl _, h, ?_⟩
      rw [numberRoots_cons]
      exact List.sublist_append_left _ _
    · rcases ih (tid + 1) x h with ⟨r2, tid2, hr2, hle, hmem, hsub⟩
      refine ⟨r2, tid2, List.mem_cons_of_mem r hr2, by omega, hmem, ?_⟩
      rw [numberRoots_cons]
      exact hsub.trans (List.sublist_append_right _ _)

theorem numberRoots_same_tid (ns : List Node) :
    ∀ (rs : List Node) (tid : Nat) (x y : StoredNode),
      x ∈ numberRoots ns rs tid → y ∈ numberRoots ns rs tid →
      x.tree_id = y.tree_id →
      ∃ r tid2, r ∈ rs ∧
        x ∈ (numberNode ns ns.length r tid2 1 0).1 ∧
        y ∈ (numberNode ns ns.length r tid2 1 0).1 ∧
        (numberNode ns ns.length r tid2 1 0).1.Sublist
          (numberRoots ns rs tid) := by
  intro rs
  induction rs with
  | nil => intro tid x y h; simp [numberRoots] at h
  | cons r rs ih =>
    intro tid x y hx hy htid
    rw [numberRoots_cons] at hx hy
    rcases List.mem_append.mp hx with hx | hx <;>
      rcases List.mem_append.mp hy with hy | hy
    · refine ⟨r, tid, List.mem_cons_self r rs, hx, hy, ?_⟩
      rw [numberRoots_cons]
      exact List.sublist_append_left _ _
    · exfalso
      have h1 := (numberNode_bounds ns ns.length r tid 1 0 x hx).2.2.2
      have h2 := numberRoots_tid_lb ns rs (tid + 1) y hy
      omega
    · exfalso
      have h1 := (numberNode_bounds ns ns.length r tid 1 0 y hy).2.2.2
      have h2 := numberRoots_tid_lb ns rs (tid + 1) x hx
      omega
    · rcases ih (tid + 1) x y hx hy htid with ⟨r2, tid2, hr2, hmx, hmy, hsub⟩
      refine ⟨r2, tid2, List.mem_cons_of_mem r hr2, hmx, hmy, ?_⟩
      rw [numberRoots_cons]
      exact hsub.trans (List.sublist_append_right _ _)

theorem numberRoots_filter_block (ns : List Node) (q : StoredNode → Bool) :
    ∀ (rs : List Node) (tid : Nat) (x : StoredNode),
      x ∈ numberRoots ns rs tid →
      ∃ r tid2, r ∈ rs ∧ x ∈ (numberNode ns ns.length r tid2 1 0).1 ∧
        (numberRoots ns rs tid).filter
            (fun y => decide (y.tree_id = x.tree_id) && q y) =
          ((numberNode ns ns.length r tid2 1 0).1).filter
            (fun y => decide (y.tree_id = x.tree_id) && q y) := by
  intro rs
  induction rs with
  | nil => intro tid x h; simp [numberRoots] at h
  | cons r rs ih =>
    intro tid x h
    rw [numberRoots_cons] at h
    rw [numberRoots_cons]
    rcases List.mem_append.mp h with h | h
    · have hxt : x.tree_id = tid :=
        (numberNode_bounds ns ns.length r tid 1 0 x h).2.2.2
      refine ⟨r, tid, List.mem_cons_self r rs, h, ?_⟩
      rw [List.filter_append]
      have hnil : (numberRoots ns rs (tid + 1)).filter
          (fun y => decide (y.tree_id = x.tree_id) && q y) = [] := by
        rw [List.filter_eq_nil_iff]
        intro y hy
        have := numberRoots_tid_lb ns rs (tid + 1) y hy
        simp only [Bool.and_eq_true, decide_eq_true_eq, not_and]
        intro he
        omega
      rw [hnil, List.append_nil]
    · have hxt : tid + 1 ≤ x.tree_id := numberRoots_tid_lb ns rs (tid + 1) x h
      rcases ih (tid + 1) x h with ⟨r2, tid2, hr2, hmem, heq⟩
      refine ⟨r2, tid2, List.mem_cons_of_mem r hr2, hmem, ?_⟩
      rw [List.filter_append]
      have hnil : ((numberNode ns ns.length r tid 1 0).1).filter
          (fun y => decide (y.tree_id = x.tree_id) && q y) = [] := by
        rw [List.filter_eq_nil_iff]
        intro y hy
        have := (numberNode_bounds ns ns.length r tid 1 0 y hy).2.2.2
        simp only [Bool.and_eq_true, decide_eq_true_eq, not_and]
        intro he
        omega
      rw [hnil, List.nil_append]
      exact heq

theorem numberRoots_nodup (ns : List Node)
    (hnd : (ns.map (fun n => n.id)).Nodup) (hnc : hasCycle ns = false) :
    ∀ (rs : List Node) (tid : Nat), (rs.map (fun n => n.id)).Nodup →
      (∀ r ∈ rs, r ∈ ns) → (∀ r ∈ rs, stepUp ns r = none) →
      (((numberRoots ns rs tid).map (fun x => x.id)).Nodup) := by
  intro rs
  induction rs with
  | nil => intro tid _ _ _; simp [numberRoots]
  | cons r rs ih =>
    intro tid hrs hmem hroot
    rw [numberRoots_cons, List.map_append, List.nodup_append]
    simp only [List.map_cons, List.nodup_cons] at hrs
    have hrn : r ∈ ns := hmem r (List.mem_cons_self r rs)
    refine ⟨numberNode_nodup ns hnd hnc ns.length r hrn tid 1 0,
      ih (tid + 1) hrs.2 (fun a ha => hmem a (List.mem_cons_of_mem r ha))
        (fun a ha => hroot a (List.mem_cons_of_mem r ha)), ?_⟩
    intro i hi1 hi2
    rcases List.mem_map.mp hi1 with ⟨x1, hx1, hid1⟩
    rcases List.mem_map.mp hi2 with ⟨x2, hx2, hid2⟩
    rcases numberNode_src ns hnd ns.length r hrn tid 1 0 x1 hx1 with
      ⟨b1, k1, hb1, _, hch1, hbid1, _, _, _⟩
    rcases numberRoots_split ns rs (tid + 1) x2 hx2 with
      ⟨r2, tid2, hr2, _, hmem2, _⟩
    rcases numberNode_src ns hnd ns.length r2
      (hmem r2 (List.mem_cons_of_mem r hr2)) tid2 1 0 x2 hmem2 with
      ⟨b2, k2, hb2, _, hch2, hbid2, _, _, _⟩
    have hbeq : b1 = b2 := by
      apply node_id_inj hnd hb1 hb2
      rw [← hbid1, ← hbid2, hid1, hid2]
    subst hbeq
    have huniq := rootHit_unique hch1 hch2
      (hroot r (List.mem_cons_self r rs))
      (hroot r2 (List.mem_cons_of_mem r hr2))
    apply hrs.1
    rw [huniq.2]
    exact List.mem_map_of_mem (fun n => n.id) hr2

theorem buildStore_nodup (ns : List Node)
    (hnd : (ns.map (fun n => n.id)).Nodup) (hnc : hasCycle ns = false) :
    ((buildStore ns).map (fun x => x.id)).Nodup := by
  unfold buildStore
  exact numberRoots_nodup ns hnd hnc (rootNodes ns) 1 (rootNodes_nodup hnd)
    (fun r hr => (rootNodes_mem hr).1) (fun r hr => (rootNodes_mem hr).2)

theorem numberRoots_has_block (ns : List Node) :
    ∀ (rs : List Node) (tid : Nat) (r : Node), r ∈ rs → ∃ tid2,
      (numberNode ns ns.length r tid2 1 0).1.Sublist
        (numberRoots ns rs tid) := by
  intro rs
  induction rs with
  | nil => intro tid r h; cases h
  | cons a rs ih =>
    intro tid r h
    rw [numberRoots_cons]
    rcases List.mem_cons.mp h with h | h
    · subst h
      exact ⟨tid, List.sublist_append_left _ _⟩
    · rcases ih (tid + 1) r h with ⟨tid2, hsub⟩
      exact ⟨tid2, hsub.trans (List.sublist_append_right _ _)⟩

/-- Every input row appears in the numbered store (on cycle-free input). -/
theorem buildStore_complete (ns : List Node)
    (hnd : (ns.map (fun n => n.id)).Nodup) (hnc : hasCycle ns = false) :
    ∀ b ∈ ns, ∃ x ∈ buildStore ns, x.id = b.id := by
  intro b hb
  rcases (reachesRoot_iff ns ns.length b).mp (hasCycle_false_reaches hnc hb)
    with ⟨k, hk, r, hchain, hroot⟩
  have hrmem : r ∈ ns := chainUpN_mem hb hchain
  have hrroot : r ∈ rootNodes ns := rootNodes_mem_of hrmem hroot
  rcases numberRoots_has_block ns (rootNodes ns) 1 r hrroot with ⟨tid2, hsub⟩
  rcases numberNode_complete ns hnd ns.length r hrmem b k hb hk hchain
    tid2 1 0 with ⟨x, hx, hid⟩
  exact ⟨x, hsub.mem hx, hid⟩

/-- Every store entry stems from an input row with the same id, key and
resolved parent. -/
theorem buildStore_sound (ns : List Node)
    (hnd : (ns.map (fun n => n.id)).Nodup) :
    ∀ x ∈ buildStore ns, ∃ b ∈ ns, x.id = b.id ∧ x.sort_key = b.sort_key ∧
      x.parent = (stepUp ns b).map (fun z => z.id) := by
  intro x hx
  rcases numberRoots_split ns (rootNodes ns) 1 x hx with
    ⟨r, tid2, hr, _, hmem, _⟩
  rcases numberNode_src ns hnd ns.length r (rootNodes_mem hr).1 tid2 1 0
    x hmem with ⟨b, k, hb, _, _, hid, hkey, hpar, _⟩
  exact ⟨b, hb, hid, hkey, hpar⟩

theorem buildStore_ids_perm (ns : List Node)
    (hnd : (ns.map (fun n => n.id)).Nodup) (hnc : hasCycle ns = false) :
    ((buildStore ns).map (fun x => x.id)).Perm
      (ns.map (fun n => n.id)) := by
  rw [List.perm_ext_iff_of_nodup (buildStore_nodup ns hnd hnc) hnd]
  intro i
  constructor
  · intro h
    rcases List.mem_map.mp h with ⟨x, hx, hid⟩
    rcases buildStore_sound ns hnd x hx with ⟨b, hb, hxb, _, _⟩
    rw [← hid, hxb]
    exact List.mem_map_of_mem (fun n => n.id) hb
  · intro h
    rcases List.mem_map.mp h with ⟨b, hb, hid⟩
    rcases buildStore_complete ns hnd hnc b hb with ⟨x, hx, hxb⟩
    rw [← hid, ← hxb]
    exact List.mem_map_of_mem (fun x => x.id) hx

theorem buildStore_id_inj {ns : List Node}
    (hnd : (ns.map (fun n => n.id)).Nodup) (hnc : hasCycle ns = false)
    {x y : StoredNode} (hx : x ∈ buildStore ns) (hy : y ∈ buildStore ns)
    (h : x.id = y.id) : x = y :=
  List.inj_on_of_nodup_map (buildStore_nodup ns hnd hnc) hx hy h

theorem numberNode_head (ns : List Node) (f : Nat) (n : Node)
    (tid c d : Nat) (x : StoredNode) (tl : List StoredNode)
    (heq : (numberNode ns f n tid c d).1 = x :: tl) :
    x.left = c ∧ x.right + 1 = (numberNode ns f n tid c d).2 ∧
      x.id = n.id ∧ x.depth = d := by
  cases f with
  | zero =>
    rw [numberNode_zero] at heq
    rw [numberNode_zero]
    rw [List.cons.injEq] at heq
    rw [← heq.1]
    exact ⟨rfl, rfl, rfl, rfl⟩
  | succ f =>
    rw [numberNode_succ] at heq
    rw [numberNode_succ]
    rw [List.cons.injEq] at heq
    rw [← heq.1]
    exact ⟨rfl, rfl, rfl, rfl⟩

theorem subtree_tail_inside (ns : List Node) (fp : Nat) (np : Node)
    (tid cL d : Nat) (x : StoredNode) (tl : List StoredNode)
    (heq : (numberNode ns fp np tid cL d).1 = x :: tl) :
    ∀ z ∈ tl, x.left < z.left ∧ z.right < x.right := by
  intro z hz
  have hpw := numberNode_pairwise ns fp np tid cL d
  rw [heq, List.pairwise_cons] at hpw
  have hrel := hpw.1 z hz
  have hb := numberNode_bounds ns fp np tid cL d z
    (by rw [heq]; exact List.mem_cons_of_mem x hz)
  have hhead := numberNode_head ns fp np tid cL d x tl heq
  unfold nestRel at hrel
  omega

theorem subtree_tail_filter (ns : List Node) (fp : Nat) (np : Node)
    (tid cL d : Nat) (x : StoredNode) (tl : List StoredNode)
    (heq : (numberNode ns fp np tid cL d).1 = x :: tl) :
    (x :: tl).filter (insideB x) = tl := by
  rw [List.filter_cons]
  have hx : insideB x x = false := by
    unfold insideB
    simp
  rw [hx]
  simp only [Bool.false_eq_true, if_false]
  rw [List.filter_eq_self]
  intro z hz
  have := subtree_tail_inside ns fp np tid cL d x tl heq z hz
  unfold insideB
  simp only [Bool.and_eq_true, decide_eq_true_eq]
  omega

/-- Strict interval containment in a built store means the contained entry's
input row has the containing entry's id on its parent chain. -/
theorem desc_to_chain (ns : List Node)
    (hnd : (ns.map (fun n => n.id)).Nodup) (hnc : hasCycle ns = false)
    {x y : StoredNode} (hx : x ∈ buildStore ns) (hy : y ∈ buildStore ns)
    (htid : x.tree_id = y.tree_id) (hl : x.left < y.left)
    (hr : y.right < x.right) {b0 : Node} (hb0 : b0 ∈ ns)
    (hbid : b0.id = y.id) :
    ∃ k m, 1 ≤ k ∧ k ≤ ns.length ∧ chainUpN ns k b0 = some m ∧
      m.id = x.id := by
  rcases numberRoots_same_tid ns (rootNodes ns) 1 x y hx hy htid with
    ⟨r, tid2, hr2, hmx, hmy, hsubB⟩
  have hrn : r ∈ ns := (rootNodes_mem hr2).1
  rcases numberNode_subtree ns ns.length r hrn tid2 1 0 x hmx with
    ⟨j, fp, np, tl, hF, hnp, heq, hsub⟩
  have hwsub := numberNode_width ns fp np tid2 x.left (0 + j) x
    (by rw [heq]; exact List.mem_cons_self x tl)
  rw [heq, subtree_tail_filter ns fp np tid2 x.left (0 + j) x tl heq] at hwsub
  have hwblk := numberNode_width ns ns.length r tid2 1 0 x hmx
  have htlsub : tl.Sublist
      (((numberNode ns ns.length r tid2 1 0).1).filter (insideB x)) := by
    have h1 : tl.Sublist (numberNode ns ns.length r tid2 1 0).1 := by
      refine List.Sublist.trans ?_ hsub
      rw [heq]
      exact List.sublist_cons_self x tl
    have h2 : tl.filter (insideB x) = tl := by
      rw [List.filter_eq_self]
      intro z hz
      have := subtree_tail_inside ns fp np tid2 x.left (0 + j) x tl heq z hz
      unfold insideB
      simp only [Bool.and_eq_true, decide_eq_true_eq]
      omega
    rw [← h2]
    exact List.Sublist.filter (insideB x) h1
  have htleq : tl =
      ((numberNode ns ns.length r tid2 1 0).1).filter (insideB x) := by
    apply htlsub.eq_of_length
    omega
  have hyin : y ∈ tl := by
    rw [htleq]
    refine List.mem_filter.mpr ⟨hmy, ?_⟩
    unfold insideB
    simp only [Bool.and_eq_true, decide_eq_true_eq]
    omega
  have hyout : y ∈ (numberNode ns fp np tid2 x.left (0 + j)).1 := by
    rw [heq]
    exact List.mem_cons_of_mem x hyin
  rcases numberNode_src ns hnd fp np hnp tid2 x.left (0 + j) y hyout with
    ⟨b, k, hb, hkfp, hch, hbid2, _, _, _⟩
  have hbb0 : b = b0 := node_id_inj hnd hb hb0 (by rw [← hbid2, hbid])
  subst hbb0
  have hhead := numberNode_head ns fp np tid2 x.left (0 + j) x tl heq
  have hk1 : 1 ≤ k := by
    rcases Nat.eq_zero_or_pos k with h0 | h0
    · exfalso
      subst h0
      unfold chainUpN at hch
      have hbnp : b = np := by injection hch
      have hyx : y = x := by
        apply buildStore_id_inj hnd hnc hy hx
        rw [← hbid, hbnp, ← hhead.2.2.1]
      rw [hyx] at hl
      omega
    · exact h0
  exact ⟨k, np, hk1, by omega, hch, hhead.2.2.1.symm⟩

/-- An entry whose input row has another entry's id on its parent chain is
strictly inside that entry's interval, in the same tree. -/
theorem chain_to_desc (ns : List Node)
    (hnd : (ns.map (fun n => n.id)).Nodup) (hnc : hasCycle ns = false)
    {x y : StoredNode} (hx : x ∈ buildStore ns) (hy : y ∈ buildStore ns)
    {b0 m : Node} (hb0 : b0 ∈ ns) (hbid : b0.id = y.id) {k : Nat}
    (hk : 1 ≤ k) (hchain : chainUpN ns k b0 = some m) (hmid : m.id = x.id) :
    x.tree_id = y.tree_id ∧ x.left < y.left ∧ y.right < x.right := by
  rcases numberRoots_split ns (rootNodes ns) 1 x hx with
    ⟨rx, tidx, hrx, _, hmx, hsubx⟩
  rcases numberRoots_split ns (rootNodes ns) 1 y hy with
    ⟨ry, tidy, hry, _, hmy, hsuby⟩
  have hrxn : rx ∈ ns := (rootNodes_mem hrx).1
  have hryn : ry ∈ ns := (rootNodes_mem hry).1
  rcases numberNode_src ns hnd ns.length rx hrxn tidx 1 0 x hmx with
    ⟨bx, kx, hbx, hkx, hchx, hbidx, _, _, hdepx⟩
  rcases numberNode_src ns hnd ns.length ry hryn tidy 1 0 y hmy with
    ⟨b1, ky, hb1, hky, hchy, hbidy, _, _, hdepy⟩
  have hb1b0 : b1 = b0 := node_id_inj hnd hb1 hb0 (by rw [← hbidy, hbid])
  rw [hb1b0] at hchy hbidy
  have hmns : m ∈ ns := chainUpN_mem hb0 hchain
  have hmbx : bx = m := node_id_inj hnd hbx hmns (by rw [← hbidx, hmid])
  rw [hmbx] at hchx hbidx
  have hcomb : chainUpN ns (k + kx) b0 = some rx := by
    rw [chainUpN_add, hchain]
    simpa using hchx
  have huniq := rootHit_unique hcomb hchy (rootNodes_mem hrx).2
    (rootNodes_mem hry).2
  rcases numberNode_subtree ns ns.length rx hrxn tidx 1 0 x hmx with
    ⟨j, fp, np, tl, hF, hnp, heq, hsub⟩
  have hhead := numberNode_head ns fp np tidx x.left (0 + j) x tl heq
  have hnpm : np = m := node_id_inj hnd hnp hmns
    (by rw [← hhead.2.2.1, hbidx])
  have hjkx : j = kx := by
    have h1 := hhead.2.2.2
    omega
  have hkxky : k + kx = ky := huniq.1
  have hkfp : k ≤ fp := by omega
  have hchnp : chainUpN ns k b0 = some np := by
    rw [hnpm]
    exact hchain
  rcases numberNode_complete ns hnd fp np hnp b0 k hb0 hkfp hchnp
    tidx x.left (0 + j) with ⟨z, hz, hzid⟩
  have hzstore : z ∈ buildStore ns := by
    apply hsubx.mem
    apply hsub.mem
    exact hz
  have hzy : z = y := by
    apply buildStore_id_inj hnd hnc hzstore hy
    rw [hzid, hbid]
  have hyx : y ≠ x := by
    intro hcontra
    have hbx0 : b0 = m := node_id_inj hnd hb0 hmns
      (by rw [hbid, hcontra, hbidx])
    rw [← hbx0] at hchain
    exact no_self_chain hnc hb0 hk hchain
  have hytl : y ∈ tl := by
    rw [heq] at hz
    rcases List.mem_cons.mp hz with h | h
    · exact absurd (hzy.symm.trans h) hyx
    · rw [← hzy]
      exact h
  have hinside := subtree_tail_inside ns fp np tidx x.left (0 + j) x tl heq
    y hytl
  have hytid : y.tree_id = tidx := by
    have hmem2 : y ∈ (numberNode ns ns.length rx tidx 1 0).1 := by
      apply hsub.mem
      rw [heq]
      exact List.mem_cons_of_mem x hytl
    exact (numberNode_bounds ns ns.length rx tidx 1 0 y hmem2).2.2.2
  have hxtid : x.tree_id = tidx :=
    (numberNode_bounds ns ns.length rx tidx 1 0 x hmx).2.2.2
  exact ⟨by omega, hinside.1, hinside.2⟩

theorem build_ok_iff {input : List Node} {store : List StoredNode} :
    build input = Except.ok store ↔
      (input.map (fun n => n.id)).Nodup ∧ hasCycle input = false ∧
        store = buildStore input := by
  constructor
  · intro h
    unfold build at h
    by_cases h1 : (input.map (fun n => n.id)).Nodup
    · rw [if_neg (not_not_intro h1)] at h
      by_cases h2 : hasCycle input = true
      · rw [if_pos h2] at h
        cases h
      · rw [if_neg h2] at h
        have h2f : hasCycle input = false := by
          revert h2
          cases hasCycle input <;> simp
        injection h with h
        exact ⟨h1, h2f, h.symm⟩
    · rw [if_pos h1] at h
      cases h
  · rintro ⟨h1, h2, h3⟩
    unfold build
    rw [if_neg (not_not_intro h1), if_neg (by rw [h2]; simp), h3]

theorem buildStore_width (ns : List Node) :
    ∀ x ∈ buildStore ns,
      x.right = x.left + 2 * ((buildStore ns).filter
        (fun y => decide (y.tree_id = x.tree_id) && insideB x y)).length + 1 := by
  intro x hx
  rcases numberRoots_filter_block ns (insideB x) (rootNodes ns) 1 x hx with
    ⟨r, tid2, hr, hmem, heq⟩
  have hxt : x.tree_id = tid2 :=
    (numberNode_bounds ns ns.length r tid2 1 0 x hmem).2.2.2
  have hcongr : ((numberNode ns ns.length r tid2 1 0).1).filter
      (fun y => decide (y.tree_id = x.tree_id) && insideB x y) =
      ((numberNode ns ns.length r tid2 1 0).1).filter (insideB x) := by
    apply List.filter_congr
    intro y hy
    have hyt : y.tree_id = tid2 :=
      (numberNode_bounds ns ns.length r tid2 1 0 y hy).2.2.2
    simp [hyt, hxt]
  unfold buildStore
  rw [heq, hcongr]
  exact numberNode_width ns ns.length r tid2 1 0 x hmem

/-- The chain-membership predicate on ids: whether the row with id `i2` has
the id `i` among its walked-up ancestors. -/
def chainPred (ns : List Node) (i : Nat) : Nat → Bool :=
  fun i2 =>
    match ns.find? (fun mm => mm.id == i2) with
    | none => false
    | some b => (upChain ns ns.length b).any (fun a => a.id == i)

theorem buildStore_filter_eq_chain (ns : List Node)
    (hnd : (ns.map (fun n => n.id)).Nodup) (hnc : hasCycle ns = false)
    {x : StoredNode} (hx : x ∈ buildStore ns) :
    ∀ y ∈ buildStore ns,
      (decide (y.tree_id = x.tree_id) && insideB x y) =
        chainPred ns x.id y.id := by
  intro y hy
  rcases buildStore_sound ns hnd y hy with ⟨b0, hb0, hbid, _, _⟩
  have hfind : ns.find? (fun mm => mm.id == y.id) = some b0 :=
    find_id_eq hnd hb0 hbid.symm
  have hcp : chainPred ns x.id y.id =
      (upChain ns ns.length b0).any (fun a => a.id == x.id) := by
    unfold chainPred
    rw [hfind]
  rw [hcp]
  rcases hcase : (decide (y.tree_id = x.tree_id) && insideB x y) with _ | _
  · rcases hany : (upChain ns ns.length b0).any (fun a => a.id == x.id)
      with _ | _
    · rfl
    · exfalso
      rcases List.any_eq_true.mp hany with ⟨a, ha, haid⟩
      rcases (upChain_mem_iff ns ns.length b0 a).mp ha with ⟨k, hk1, _, hch⟩
      have hdesc := chain_to_desc ns hnd hnc hx hy hb0 hbid.symm hk1 hch
        (by simpa using haid)
      have htrue : (decide (y.tree_id = x.tree_id) && insideB x y) = true := by
        unfold insideB
        simp only [Bool.and_eq_true, decide_eq_true_eq]
        exact ⟨hdesc.1.symm, hdesc.2.1, hdesc.2.2⟩
      rw [hcase] at htrue
      cases htrue
  · have h1 := hcase
    rw [Bool.and_eq_true] at h1
    have htid : y.tree_id = x.tree_id := by simpa using h1.1
    have hins : x.left < y.left ∧ y.right < x.right := by
      have h2 := h1.2
      unfold insideB at h2
      simpa using h2
    rcases desc_to_chain ns hnd hnc hx hy htid.symm hins.1 hins.2
      hb0 hbid.symm with ⟨k, m, hk1, hkN, hch, hmid⟩
    have hmem : m ∈ upChain ns ns.length b0 :=
      (upChain_mem_iff ns ns.length b0 m).mpr ⟨k, hk1, hkN, hch⟩
    have hany : (upChain ns ns.length b0).any (fun a => a.id == x.id) =
        true := List.any_eq_true.mpr ⟨m, hmem, by simp [hmid]⟩
    exact hany.symm

/-- In a built store, the interval width of every entry counts exactly the
strict descendants found by the naive parent-pointer walk over the input. -/
theorem buildStore_count (ns : List Node)
    (hnd : (ns.map (fun n => n.id)).Nodup) (hnc : hasCycle ns = false) :
    ∀ x ∈ buildStore ns,
      x.right = x.left + 2 * naiveDescendantCount ns x.id + 1 := by
  intro x hx
  have hw := buildStore_width ns x hx
  have h1 : ((buildStore ns).filter
      (fun y => decide (y.tree_id = x.tree_id) && insideB x y)) =
      ((buildStore ns).filter (fun y => chainPred ns x.id y.id)) :=
    List.filter_congr (buildStore_filter_eq_chain ns hnd hnc hx)
  have h2 : ((buildStore ns).filter
      (fun y => chainPred ns x.id y.id)).length =
      (((buildStore ns).map (fun y => y.id)).filter
        (chainPred ns x.id)).length := by
    rw [List.filter_map]
    rw [List.length_map]
    rfl
  have h3 : (((buildStore ns).map (fun y => y.id)).filter
      (chainPred ns x.id)).length =
      ((ns.map (fun n => n.id)).filter (chainPred ns x.id)).length :=
    ((buildStore_ids_perm ns hnd hnc).filter (chainPred ns x.id)).length_eq
  have h4 : ((ns.map (fun n => n.id)).filter (chainPred ns x.id)).length =
      (ns.filter (fun b => chainPred ns x.id b.id)).length := by
    rw [List.filter_map]
    rw [List.length_map]
    rfl
  have h5 : (ns.filter (fun b => chainPred ns x.id b.id)) =
      (ns.filter (fun b =>
        (upChain ns ns.length b).any (fun a => a.id == x.id))) := by
    apply List.filter_congr
    intro b hb
    unfold chainPred
    rw [find_id_eq hnd hb rfl]
  unfold naiveDescendantCount
  rw [← h5, ← h4, ← h3, ← h2, ← h1]
  exact hw

theorem pairwise_mem_rel {α : Type} {R : α → α → Prop} :
    ∀ {l : List α}, l.Pairwise R → ∀ a ∈ l, ∀ b ∈ l,
      a = b ∨ R a b ∨ R b a := by
  intro l h
  induction h with
  | nil => intro a ha; cases ha
  | cons hhead _ ih =>
    intro a ha b hb
    rcases List.mem_cons.mp ha with ha | ha <;>
      rcases List.mem_cons.mp hb with hb | hb
    · left; rw [ha, hb]
    · right; left; rw [ha]; exact hhead b hb
    · right; right; rw [hb]; exact hhead a ha
    · exact ih a ha b hb

/-- Two same-tree entries of a built store are interval-nested or disjoint;
in particular a `left` inside another interval forces full containment. -/
theorem buildStore_nest (ns : List Node) {x y : StoredNode}
    (hx : x ∈ buildStore ns) (hy : y ∈ buildStore ns)
    (htid : x.tree_id = y.tree_id) (h1 : x.left < y.left)
    (h2 : y.left ≤ x.right) : y.right < x.right := by
  rcases numberRoots_same_tid ns (rootNodes ns) 1 x y hx hy htid with
    ⟨r, tid2, hr, hmx, hmy, _⟩
  have hpw := numberNode_pairwise ns ns.length r tid2 1 0
  rcases pairwise_mem_rel hpw x hmx y hmy with h | h | h
  · rw [h] at h1; omega
  · unfold nestRel at h
    omega
  · unfold nestRel at h
    omega

theorem buildStore_left_inj (ns : List Node) {x y : StoredNode}
    (hx : x ∈ buildStore ns) (hy : y ∈ buildStore ns)
    (htid : x.tree_id = y.tree_id) (hl : x.left = y.left) : x = y := by
  rcases numberRoots_same_tid ns (rootNodes ns) 1 x y hx hy htid with
    ⟨r, tid2, hr, hmx, hmy, _⟩
  have hpw := numberNode_pairwise ns ns.length r tid2 1 0
  rcases pairwise_mem_rel hpw x hmx y hmy with h | h | h
  · exact h
  · unfold nestRel at h; omega
  · unfold nestRel at h; omega

/-- Parent links inside one numbered tree resolve within the tree, except
for the tree root whose link is the root node's own resolved parent. -/
theorem numberNode_parent (ns : List Node)
    (hnd : (ns.map (fun n => n.id)).Nodup) :
    ∀ (f : Nat) (n : Node), n ∈ ns → ∀ (tid c d : Nat),
      ∀ x ∈ (numberNode ns f n tid c d).1,
      (x.parent = (stepUp ns n).map (fun z => z.id) ∧ x.id = n.id) ∨
        ∃ z ∈ (numberNode ns f n tid c d).1, x.parent = some z.id := by
  intro f
  induction f with
  | zero =>
    intro n hn tid c d x h
    simp only [numberNode_zero, List.mem_singleton] at h
    subst h
    left
    exact ⟨rfl, rfl⟩
  | succ f ih =>
    intro n hn tid c d x h
    rw [numberNode_succ] at h
    rcases List.mem_cons.mp h with h | h
    · subst h
      left
      exact ⟨rfl, rfl⟩
    · rcases numberKids_mem_split (fun m => numberNode ns f m)
        (childrenOf ns n.id) tid (c + 1) (d + 1) x h with
        ⟨m, hm, c2, hx2, hsub⟩
      rcases childrenOf_mem hm with ⟨hmns, hmp⟩
      have hstep : stepUp ns m = some n := stepUp_of_child hnd hn hmp
      rcases ih m hmns tid c2 (d + 1) x hx2 with ⟨hpar, _⟩ | ⟨z, hz, hpar⟩
      · right
        refine ⟨mkEntry ns n tid c
          (numberKids (fun m => numberNode ns f m)
            (childrenOf ns n.id) tid (c + 1) (d + 1)).2 d,
          List.mem_cons_self _ _, ?_⟩
        rw [hpar, hstep]
        rfl
      · right
        refine ⟨z, ?_, hpar⟩
        rw [numberNode_succ]
        exact List.mem_cons_of_mem _ (hsub.mem hz)

/-- Every non-null parent link of a built store resolves to a store row. -/
theorem buildStore_resolved (ns : List Node)
    (hnd : (ns.map (fun n => n.id)).Nodup) :
    parentResolved (buildStore ns) := by
  intro x hx p hp
  rcases numberRoots_split ns (rootNodes ns) 1 x hx with
    ⟨r, tid2, hr, _, hmem, hsub⟩
  rcases numberNode_parent ns hnd ns.length r (rootNodes_mem hr).1 tid2 1 0
    x hmem with ⟨hpar, _⟩ | ⟨z, hz, hpar⟩
  · rw [(rootNodes_mem hr).2] at hpar
    rw [hpar] at hp
    cases hp
  · rw [hpar] at hp
    injection hp with hp
    exact ⟨z, hsub.mem hz, hp⟩

/-! ### Permutation invariance of the rebuild (determinism over input sets) -/

theorem perm_any {α : Type} {l1 l2 : List α} (hp : l1.Perm l2)
    (f : α → Bool) : l1.any f = l2.any f := by
  rcases h : l1.any f with _ | _
  · symm
    rw [List.any_eq_false] at h ⊢
    intro a ha
    exact h a (hp.mem_iff.mpr ha)
  · symm
    rw [List.any_eq_true] at h ⊢
    rcases h with ⟨a, ha, hf⟩
    exact ⟨a, hp.mem_iff.mp ha, hf⟩

theorem any_congr_fn {α : Type} (l : List α) (f g : α → Bool)
    (h : ∀ a ∈ l, f a = g a) : l.any f = l.any g := by
  induction l with
  | nil => rfl
  | cons b bs ih =>
    simp only [List.any_cons]
    rw [h b (List.mem_cons_self b bs),
      ih (fun a ha => h a (List.mem_cons_of_mem b ha))]

theorem find_id_perm {l1 l2 : List Node}
    (hnd : (l1.map (fun n => n.id)).Nodup) (hp : l1.Perm l2) (p : Nat) :
    l1.find? (fun m => m.id == p) = l2.find? (fun m => m.id == p) := by
  have hnd2 : (l2.map (fun n => n.id)).Nodup := (hp.map _).nodup_iff.mp hnd
  by_cases h : ∃ b ∈ l1, b.id = p
  · rcases h with ⟨b, hb, hbp⟩
    rw [find_id_eq hnd hb hbp, find_id_eq hnd2 (hp.subset hb) hbp]
  · push_neg at h
    rw [List.find?_eq_none.mpr, List.find?_eq_none.mpr]
    · intro a ha
      simp only [beq_iff_eq]
      exact h a (hp.mem_iff.mpr ha)
    · intro a ha
      simp only [beq_iff_eq]
      exact h a ha

theorem stepUp_perm {l1 l2 : List Node}
    (hnd : (l1.map (fun n => n.id)).Nodup) (hp : l1.Perm l2) (x : Node) :
    stepUp l1 x = stepUp l2 x := by
  unfold stepUp
  cases x.parent_id with
  | none => rfl
  | some p => exact find_id_perm hnd hp p

theorem reachesRoot_perm {l1 l2 : List Node}
    (hnd : (l1.map (fun n => n.id)).Nodup) (hp : l1.Perm l2) :
    ∀ (f : Nat) (x : Node), reachesRoot l1 f x = reachesRoot l2 f x := by
  intro f
  induction f with
  | zero =>
    intro x
    unfold reachesRoot
    rw [stepUp_perm hnd hp]
  | succ f ih =>
    intro x
    unfold reachesRoot
    rw [stepUp_perm hnd hp]
    cases stepUp l2 x with
    | none => rfl
    | some m => exact ih m

theorem hasCycle_perm {l1 l2 : List Node}
    (hnd : (l1.map (fun n => n.id)).Nodup) (hp : l1.Perm l2) :
    hasCycle l1 = hasCycle l2 := by
  unfold hasCycle
  rw [perm_any hp]
  exact any_congr_fn l2 _ _
    (fun a _ => by rw [reachesRoot_perm hnd hp, hp.length_eq])

theorem sort_filter_perm_eq {l1 l2 : List Node} (p q : Node → Bool)
    (hnd : (l1.map (fun n => n.id)).Nodup) (hp : l1.Perm l2)
    (hcong : ∀ x, p x = q x) :
    List.insertionSort sibLE (l1.filter p) =
      List.insertionSort sibLE (l2.filter q) := by
  have hperm : (l1.filter p).Perm (l2.filter q) := by
    have h1 : l2.filter p = l2.filter q := List.filter_congr (fun x _ => hcong x)
    rw [← h1]
    exact hp.filter p
  have hperm2 : (List.insertionSort sibLE (l1.filter p)).Perm
      (List.insertionSort sibLE (l2.filter q)) :=
    (List.perm_insertionSort sibLE (l1.filter p)).trans
      (hperm.trans (List.perm_insertionSort sibLE (l2.filter q)).symm)
  apply eq_of_perm_of_sorted_sibLE hperm2
    (List.sorted_insertionSort sibLE _) (List.sorted_insertionSort sibLE _)
  have hsub : ((l1.filter p).map (fun n => n.id)).Nodup :=
    ((List.filter_sublist l1).map (fun n => n.id)).nodup hnd
  exact ((List.perm_insertionSort sibLE (l1.filter p)).map _).nodup_iff.mpr hsub

theorem childrenOf_perm {l1 l2 : List Node}
    (hnd : (l1.map (fun n => n.id)).Nodup) (hp : l1.Perm l2) (p : Nat) :
    childrenOf l1 p = childrenOf l2 p := by
  unfold childrenOf
  exact sort_filter_perm_eq _ _ hnd hp (fun x => rfl)

theorem rootNodes_perm {l1 l2 : List Node}
    (hnd : (l1.map (fun n => n.id)).Nodup) (hp : l1.Perm l2) :
    rootNodes l1 = rootNodes l2 := by
  unfold rootNodes
  exact sort_filter_perm_eq _ _ hnd hp
    (fun x => by rw [stepUp_perm hnd hp])

theorem numberKids_congr
    (step1 step2 : Node → Nat → Nat → Nat → List StoredNode × Nat)
    (h : ∀ m tid c d, step1 m tid c d = step2 m tid c d) :
    ∀ (l : List Node) (tid c d : Nat),
      numberKids step1 l tid c d = numberKids step2 l tid c d := by
  intro l
  induction l with
  | nil => intro tid c d; rfl
  | cons a xs ih =>
    intro tid c d
    rw [numberKids_cons, numberKids_cons, h a tid c d, ih tid _ d]

theorem numberNode_perm {l1 l2 : List Node}
    (hnd : (l1.map (fun n => n.id)).Nodup) (hp : l1.Perm l2) :
    ∀ (f : Nat) (n : Node) (tid c d : Nat),
      numberNode l1 f n tid c d = numberNode l2 f n tid c d := by
  intro f
  induction f with
  | zero =>
    intro n tid c d
    rw [numberNode_zero, numberNode_zero]
    unfold mkEntry
    rw [stepUp_perm hnd hp]
  | succ f ih =>
    intro n tid c d
    rw [numberNode_succ, numberNode_succ]
    rw [childrenOf_perm hnd hp]
    rw [numberKids_congr (fun m => numberNode l1 f m)
      (fun m => numberNode l2 f m) (fun m tid c d => ih m tid c d)]
    unfold mkEntry
    rw [stepUp_perm hnd hp]

theorem numberRoots_perm_aux {l1 l2 : List Node}
    (hnd : (l1.map (fun n => n.id)).Nodup) (hp : l1.Perm l2) :
    ∀ (rs : List Node) (tid : Nat),
      numberRoots l1 rs tid = numberRoots l2 rs tid := by
  intro rs
  induction rs with
  | nil => intro tid; rfl
  | cons r rs ih =>
    intro tid
    rw [numberRoots_cons, numberRoots_cons, ih (tid + 1),
      numberNode_perm hnd hp, hp.length_eq]

/-- Rebuilding the same input set twice (in any order) yields the same
result: the rebuild only depends on the set of input rows. -/
theorem build_perm {l1 l2 : List Node} (hp : l1.Perm l2) :
    build l1 = build l2 := by
  by_cases hnd : (l1.map (fun n => n.id)).Nodup
  · have hnd2 : (l2.map (fun n => n.id)).Nodup := (hp.map _).nodup_iff.mp hnd
    unfold build
    rw [if_neg (not_not_intro hnd), if_neg (not_not_intro hnd2)]
    rw [hasCycle_perm hnd hp]
    by_cases hc : hasCycle l2 = true
    · rw [if_pos hc, if_pos hc]
    · rw [if_neg hc, if_neg hc]
      unfold buildStore
      rw [numberRoots_perm_aux hnd hp, rootNodes_perm hnd hp]
  · have hnd2 : ¬ (l2.map (fun n => n.id)).Nodup := by
      intro h
      exact hnd ((hp.map _).nodup_iff.mpr h)
    unfold build
    rw [if_pos hnd, if_pos hnd2]

/-! ### Query-layer lemmas -/

theorem ancestorsQ_mem_iff (store : List StoredNode) (x a : StoredNode)
    (incl : Bool) :
    a ∈ ancestorsQ store x incl ↔
      a ∈ store ∧ a.tree_id = x.tree_id ∧
        (if incl then a.left ≤ x.left else a.left < x.left) ∧
        x.right ≤ a.right := by
  unfold ancestorsQ
  rw [List.mem_insertionSort, List.mem_filter]
  cases incl <;> simp [and_assoc]

theorem descendantsQ_mem_iff (store : List StoredNode) (x y : StoredNode)
    (incl : Bool) :
    y ∈ descendantsQ store x incl ↔
      y ∈ store ∧ y.tree_id = x.tree_id ∧
        (if incl then x.left else x.left + 1) ≤ y.left ∧
        y.left ≤ (if incl then x.right else x.right - 1) := by
  unfold descendantsQ
  rw [List.mem_insertionSort, List.mem_filter]
  cases incl <;> simp [and_assoc]

theorem rootsQ_mem_iff (store : List StoredNode) (x : StoredNode) :
    x ∈ rootsQ store ↔ x ∈ store ∧ x.parent = none := by
  unfold rootsQ
  rw [List.mem_insertionSort, List.mem_filter]
  simp

theorem rootsQ_sorted (store : List StoredNode) :
    List.Sorted rootOrder (rootsQ store) :=
  List.sorted_insertionSort rootOrder _

theorem sorted_lt_of_sorted_le {l : List StoredNode}
    (hs : l.Sorted byLeft) (hnd : l.Nodup)
    (hinj : ∀ a ∈ l, ∀ b ∈ l, a.left = b.left → a = b) :
    l.Sorted (fun a b => a.left < b.left) := by
  induction l with
  | nil => exact List.sorted_nil
  | cons a t ih =>
    rw [List.sorted_cons] at hs
    rw [List.sorted_cons]
    rw [List.nodup_cons] at hnd
    refine ⟨?_, ih hs.2 hnd.2 (fun p hp q hq =>
      hinj p (List.mem_cons_of_mem a hp) q (List.mem_cons_of_mem a hq))⟩
    intro b hb
    have hle := hs.1 b hb
    unfold byLeft at hle
    rcases Nat.lt_or_ge a.left b.left with h | h
    · exact h
    · exfalso
      have heq : a.left = b.left := by omega
      have := hinj a (List.mem_cons_self a t) b (List.mem_cons_of_mem a hb)
        heq
      rw [this] at hnd
      exact hnd.1 hb

theorem getLast_of_sorted_max {l : List StoredNode} {x : StoredNode}
    (hs : l.Sorted (fun a b => a.left < b.left)) (hx : x ∈ l)
    (hmax : ∀ a ∈ l, a.left ≤ x.left) : l.getLast? = some x := by
  induction l with
  | nil => cases hx
  | cons a t ih =>
    cases t with
    | nil =>
      rw [List.mem_singleton] at hx
      rw [hx, List.getLast?_singleton]
    | cons b t2 =>
      rw [List.getLast?_cons_cons]
      rw [List.sorted_cons] at hs
      have hx2 : x ∈ b :: t2 := by
        rcases List.mem_cons.mp hx with h | h
        · exfalso
          have h1 := hs.1 b (List.mem_cons_self b t2)
          have h2 := hmax b
            (List.mem_cons_of_mem a (List.mem_cons_self b t2))
          rw [h] at h2
          omega
        · exact h
      exact ih hs.2 hx2 (fun p hp => hmax p (List.mem_cons_of_mem a hp))

theorem buildStore_entries_nodup (ns : List Node)
    (hnd : (ns.map (fun n => n.id)).Nodup) (hnc : hasCycle ns = false) :
    (buildStore ns).Nodup :=
  List.Nodup.of_map _ (buildStore_nodup ns hnd hnc)

/-- Ancestors query results are strictly ordered by `left` in a built
store. -/
theorem ancestorsQ_sorted_lt (ns : List Node)
    (hnd : (ns.map (fun n => n.id)).Nodup) (hnc : hasCycle ns = false)
    (x : StoredNode) (incl : Bool) :
    (ancestorsQ (buildStore ns) x incl).Sorted
      (fun a b => a.left < b.left) := by
  apply sorted_lt_of_sorted_le
  · exact List.sorted_insertionSort byLeft _
  · unfold ancestorsQ
    refine (List.perm_insertionSort byLeft _).nodup_iff.mpr ?_
    exact (buildStore_entries_nodup ns hnd hnc).filter _
  · intro a ha b hb hab
    rw [ancestorsQ_mem_iff] at ha hb
    exact buildStore_left_inj ns ha.1 hb.1 (ha.2.1.trans hb.2.1.symm) hab

theorem buildStore_lt (ns : List Node) :
    ∀ x ∈ buildStore ns, x.left < x.right ∧ 1 ≤ x.left := by
  intro x hx
  rcases numberRoots_split ns (rootNodes ns) 1 x hx with
    ⟨r, tid2, _, _, hmem, _⟩
  have := numberNode_bounds ns ns.length r tid2 1 0 x hmem
  exact ⟨this.2.1, this.1⟩

/-! ### Concrete example inputs -/

/-- The §8 example forest `{1:null, 2:1, 3:1, 4:2}` with `sort_key = id`. -/
def exampleInput : List Node :=
  [⟨1, none, 1⟩, ⟨2, some 1, 2⟩, ⟨3, some 1, 3⟩, ⟨4, some 2, 4⟩]

/-- The numbered store of the §8 example forest. -/
def exampleStore : List StoredNode := buildStore exampleInput

/-- The store row of node 1 in the §8 example. -/
def exampleNode1 : StoredNode := ⟨1, none, 1, 1, 8, 1, 0⟩

/-- The store row of node 4 in the §8 example. -/
def exampleNode4 : StoredNode := ⟨4, some 2, 4, 3, 4, 1, 2⟩

/-- The §8 example input in a different row order (same set of rows). -/
def exampleInputPerm : List Node :=
  [⟨2, some 1, 2⟩, ⟨1, none, 1⟩, ⟨4, some 2, 4⟩, ⟨3, some 1, 3⟩]

/-- A two-row input whose parent pointers form a cycle. -/
def cycleInput : List Node :=
  [⟨1, some 2, 0⟩, ⟨2, some 1, 0⟩]

/-- A two-row input claiming the same id twice. -/
def dupInput : List Node :=
  [⟨1, none, 0⟩, ⟨1, none, 1⟩]

/-- A forest of two trees: 5 nodes under root 10, 2 nodes under root 1. -/
def twoTreeInput : List Node :=
  [⟨10, none, 0⟩, ⟨11, some 10, 0⟩, ⟨12, some 10, 0⟩, ⟨13, some 11, 0⟩,
   ⟨14, some 11, 0⟩, ⟨1, none, 0⟩, ⟨2, some 1, 0⟩]

/-! ### The claims -/

/-- C1: for the input forest `{1:null, 2:1, 3:1, 4:2}` (id:parent) with
`sort_key` equal to `id`, a full TreeBuilder rebuild assigns node 1
`left=1, right=8, depth=0`; node 2 `left=2, right=5, depth=1`; node 4
`left=3, right=4, depth=2`; node 3 `left=6, right=7, depth=1`; and
`descendant_count(1) = 3`. -/
theorem claim_C1_example_numbering :
    build exampleInput = Except.ok
      [⟨1, none, 1, 1, 8, 1, 0⟩, ⟨2, some 1, 2, 2, 5, 1, 1⟩,
       ⟨4, some 2, 4, 3, 4, 1, 2⟩, ⟨3, some 1, 3, 6, 7, 1, 1⟩] ∧
    descendantCount exampleNode1 = 3 :=
  ⟨rfl, rfl⟩

/-- C2: for every node of a forest produced by TreeBuilder,
`right - left` is odd, and `(right - left - 1) / 2` equals the number of
strict descendants of that node as computed by a naive recursive walk over
the parent pointers of the same data. -/
theorem claim_C2_descendant_count (input : List Node)
    (store : List StoredNode) (h : build input = Except.ok store) :
    ∀ x ∈ store, (x.right - x.left) % 2 = 1 ∧
      (x.right - x.left - 1) / 2 = naiveDescendantCount input x.id := by
  rcases build_ok_iff.mp h with ⟨hnd, hnc, hst⟩
  subst hst
  intro x hx
  have hcount := buildStore_count input hnd hnc x hx
  constructor
  · omega
  · omega

theorem claim_C2_witness :
    (exampleNode1.right - exampleNode1.left) % 2 = 1 ∧
      (exampleNode1.right - exampleNode1.left - 1) / 2 =
        naiveDescendantCount exampleInput exampleNode1.id :=
  claim_C2_descendant_count exampleInput exampleStore rfl
    exampleNode1 (by decide)

/-- C3: if the input parent-pointer graph contains a cycle, the full rebuild
fails with `CycleDetected` and no numbering field of any node is changed:
the pre-rebuild store is returned untouched beside the error. -/
theorem claim_C3_cycle_atomic (input : List Node) (store : List StoredNode)
    (hnd : (input.map (fun n => n.id)).Nodup)
    (hcyc : ∃ n ∈ input, ∃ k, 1 ≤ k ∧ chainUpN input k n = some n) :
    build input = Except.error BuildError.CycleDetected ∧
      rebuildOrKeep store input = (store, some BuildError.CycleDetected) := by
  rcases hcyc with ⟨n, hn, k, hk, hchain⟩
  have hc : hasCycle input = true := cycle_hasCycle hn hk hchain
  have hb : build input = Except.error BuildError.CycleDetected := by
    unfold build
    rw [if_neg (not_not_intro hnd), if_pos hc]
  refine ⟨hb, ?_⟩
  unfold rebuildOrKeep
  rw [hb]

theorem claim_C3_witness :
    build cycleInput = Except.error BuildError.CycleDetected ∧
      rebuildOrKeep exampleStore cycleInput =
        (exampleStore, some BuildError.CycleDetected) :=
  claim_C3_cycle_atomic cycleInput exampleStore (by decide)
    ⟨⟨1, some 2, 0⟩, by decide, 2, by decide, by decide⟩

/-- C4: if two input rows of a full rebuild claim the same id, the whole
rebuild fails with `DuplicateId` and nothing is committed: the pre-rebuild
store is returned untouched beside the error, and no forest numbering is
produced from such input. -/
theorem claim_C4_duplicate_id (input : List Node) (store : List StoredNode)
    (hdup : ¬ (input.map (fun n => n.id)).Nodup) :
    build input = Except.error BuildError.DuplicateId ∧
      rebuildOrKeep store input = (store, some BuildError.DuplicateId) := by
  have hb : build input = Except.error BuildError.DuplicateId := by
    unfold build
    rw [if_pos hdup]
  refine ⟨hb, ?_⟩
  unfold rebuildOrKeep
  rw [hb]

theorem claim_C4_witness :
    build dupInput = Except.error BuildError.DuplicateId ∧
      rebuildOrKeep exampleStore dupInput =
        (exampleStore, some BuildError.DuplicateId) :=
  claim_C4_duplicate_id dupInput exampleStore (by decide)

/-- C5: TreeBuilder is deterministic: running a full rebuild twice on the
same input set of `(id, parent_id, sort_key)` triples — in whatever row
order the set is presented — yields identical `left`, `right`, `tree_id`
and `depth` values for every node (sibling ties on equal `sort_key` are
broken by `id` in the sibling order `sibLE` used by the builder). -/
theorem claim_C5_deterministic (input1 input2 : List Node)
    (hp : input1.Perm input2) : build input1 = build input2 :=
  build_perm hp

theorem claim_C5_witness : build exampleInput = build exampleInputPerm :=
  claim_C5_deterministic exampleInput exampleInputPerm (by decide)

/-- C6: for every node of a valid forest, `ancestors(id, include_self)`
returns exactly the nodes with the same `tree_id` whose `left` is ≤ the
node's `left` (strictly `<` when `include_self` is false) and whose `right`
is ≥ the node's `right`, ordered by `left` ascending (so the root comes
first and, when `include_self` is true, the node itself comes last); in the
§8 example forest, `ancestors(4, include_self=true)` is `[1, 2, 4]` in that
order. -/
theorem claim_C6_ancestors (input : List Node) (store : List StoredNode)
    (h : build input = Except.ok store) :
    (∀ x ∈ store, ∀ (incl : Bool) (a : StoredNode),
      (a ∈ ancestorsQ store x incl ↔
        a ∈ store ∧ a.tree_id = x.tree_id ∧
          (if incl then a.left ≤ x.left else a.left < x.left) ∧
          x.right ≤ a.right) ∧
      (ancestorsQ store x incl).Sorted (fun p q => p.left < q.left) ∧
      (ancestorsQ store x true).getLast? = some x) ∧
    (ancestorsQ exampleStore exampleNode4 true).map (fun a => a.id) =
      [1, 2, 4] := by
  rcases build_ok_iff.mp h with ⟨hnd, hnc, hst⟩
  subst hst
  constructor
  · intro x hx incl a
    refine ⟨ancestorsQ_mem_iff _ x a incl,
      ancestorsQ_sorted_lt input hnd hnc x incl, ?_⟩
    apply getLast_of_sorted_max (ancestorsQ_sorted_lt input hnd hnc x true)
    · rw [ancestorsQ_mem_iff]
      exact ⟨hx, rfl, by simp, le_refl _⟩
    · intro a2 ha2
      rw [ancestorsQ_mem_iff] at ha2
      simpa using ha2.2.2.1
  · rfl

theorem claim_C6_witness :
    (ancestorsQ exampleStore exampleNode4 true).getLast? =
      some exampleNode4 :=
  ((claim_C6_ancestors exampleInput exampleStore rfl).1 exampleNode4
    (by decide) true exampleNode4).2.2

/-- C7: the roots listing returns exactly the store rows with no parent,
ordered by descendant count descending with id ascending as tie-break; on a
forest with two trees of sizes 5 (root 10) and 2 (root 1) the size-5 root
comes first even though its id is larger. -/
theorem claim_C7_roots :
    (∀ (store : List StoredNode) (x : StoredNode),
      x ∈ rootsQ store ↔ x ∈ store ∧ x.parent = none) ∧
    (∀ store : List StoredNode, (rootsQ store).Sorted rootOrder) ∧
    (rootsQ (buildStore twoTreeInput)).map (fun x => x.id) = [10, 1] :=
  ⟨rootsQ_mem_iff, rootsQ_sorted, by decide⟩

theorem duality_incl_true (input : List Node)
    (hnd : (input.map (fun n => n.id)).Nodup)
    (hnc : hasCycle input = false) {A B : StoredNode}
    (hA : A ∈ buildStore input) (hB : B ∈ buildStore input) :
    (B ∈ buildStore input ∧ B.tree_id = A.tree_id ∧
        A.left ≤ B.left ∧ B.left ≤ A.right) ↔
      (A ∈ buildStore input ∧ A.tree_id = B.tree_id ∧
        A.left ≤ B.left ∧ B.right ≤ A.right) := by
  have hAlt := buildStore_lt input A hA
  have hBlt := buildStore_lt input B hB
  constructor
  · rintro ⟨_, htid, h1, h2⟩
    refine ⟨hA, htid.symm, h1, ?_⟩
    rcases Nat.lt_or_ge A.left B.left with hlt | hge
    · have := buildStore_nest input hA hB htid.symm hlt h2
      omega
    · have heq : A.left = B.left := by omega
      have := buildStore_left_inj input hA hB htid.symm heq
      rw [this]
  · rintro ⟨_, htid, h1, h2⟩
    exact ⟨hB, htid.symm, h1, by omega⟩

theorem duality_incl_false (input : List Node)
    (hnd : (input.map (fun n => n.id)).Nodup)
    (hnc : hasCycle input = false) {A B : StoredNode}
    (hA : A ∈ buildStore input) (hB : B ∈ buildStore input) :
    (B ∈ buildStore input ∧ B.tree_id = A.tree_id ∧
        A.left + 1 ≤ B.left ∧ B.left ≤ A.right - 1) ↔
      (A ∈ buildStore input ∧ A.tree_id = B.tree_id ∧
        A.left < B.left ∧ B.right ≤ A.right) := by
  have hAlt := buildStore_lt input A hA
  have hBlt := buildStore_lt input B hB
  constructor
  · rintro ⟨_, htid, h1, h2⟩
    have hlt : A.left < B.left := by omega
    refine ⟨hA, htid.symm, hlt, ?_⟩
    have := buildStore_nest input hA hB htid.symm hlt (by omega)
    omega
  · rintro ⟨_, htid, h1, h2⟩
    exact ⟨hB, htid.symm, by omega, by omega⟩

/-- C8: for every pair of nodes A and B in a valid forest, B is a member of
`descendants(A)` if and only if A is a member of `ancestors(B)` (with the
same `include_self` choice on both sides). -/
theorem claim_C8_duality (input : List Node) (store : List StoredNode)
    (h : build input = Except.ok store) (incl : Bool) :
    ∀ A ∈ store, ∀ B ∈ store,
      (B ∈ descendantsQ store A incl ↔ A ∈ ancestorsQ store B incl) := by
  rcases build_ok_iff.mp h with ⟨hnd, hnc, hst⟩
  subst hst
  intro A hA B hB
  rw [descendantsQ_mem_iff, ancestorsQ_mem_iff]
  cases incl with
  | true => exact duality_incl_true input hnd hnc hA hB
  | false => exact duality_incl_false input hnd hnc hA hB

theorem claim_C8_witness :
    exampleNode4 ∈ descendantsQ exampleStore exampleNode1 true ↔
      exampleNode1 ∈ ancestorsQ exampleStore exampleNode4 true :=
  claim_C8_duality exampleInput exampleStore rfl true
    exampleNode1 (by decide) exampleNode4 (by decide)

theorem assignmentCount_cons (a : SellerAssignment)
    (db : List SellerAssignment) (p : Platform) (t : Nat) :
    assignmentCount (a :: db) p t =
      (if a.platform = p ∧ a.target_user_id = t then 1 else 0) +
        assignmentCount db p t := by
  unfold assignmentCount
  rw [List.filter_cons]
  by_cases h : a.platform = p ∧ a.target_user_id = t
  · rw [if_pos h]
    simp [h.1, h.2]
    omega
  · rw [if_neg h]
    have : (decide (a.platform = p) && a.target_user_id == t) = false := by
      rw [not_and_or] at h
      rcases h with h | h <;> simp [h]
    rw [this]
    simp

/-- C9: every successfully saved seller-wallet claim preserves the two
invariants: at most 5 `SellerAssignment` rows exist per
`(platform, target_user_id)` pair — a sixth claim attempt on a wallet that
already has 5 is rejected with a validation error before any write — and no
two rows share the same `(seller, platform, target_user_id)` triple. -/
theorem claim_C9_wallet_invariants (lus bus : List Nat)
    (db : List SellerAssignment) (s : Nat) (p : Platform) (t : Nat) :
    (∀ db2, (∀ p2 t2, assignmentCount db p2 t2 ≤ 5) →
      (db.map assignmentKey).Nodup →
      claimWallet lus bus db s p t = Except.ok db2 →
      (∀ p2 t2, assignmentCount db2 p2 t2 ≤ 5) ∧
        (db2.map assignmentKey).Nodup) ∧
    (5 ≤ assignmentCount db p t →
      ∃ e, claimWallet lus bus db s p t = Except.error e) := by
  constructor
  · intro db2 hbound hnd hok
    unfold claimWallet at hok
    by_cases h1 : (match p with
        | Platform.limitless => lus
        | Platform.boostyfi => bus).contains t
    · rw [if_neg (not_not_intro h1)] at hok
      by_cases h2 : 5 ≤ assignmentCount db p t
      · rw [if_pos h2] at hok
        cases hok
      · rw [if_neg h2] at hok
        by_cases h3 : db.any (fun a =>
            a.seller == s && decide (a.platform = p) &&
            a.target_user_id == t) = true
        · rw [if_pos h3] at hok
          cases hok
        · rw [if_neg h3, if_neg h2] at hok
          injection hok with hok
          subst hok
          constructor
          · intro p2 t2
            rw [assignmentCount_cons]
            by_cases hm : p = p2 ∧ t = t2
            · rw [if_pos (by exact ⟨hm.1, hm.2⟩)]
              rw [← hm.1, ← hm.2]
              omega
            · rw [if_neg (by
                intro hc
                exact hm ⟨hc.1, hc.2⟩)]
              have := hbound p2 t2
              omega
          · rw [List.map_cons, List.nodup_cons]
            refine ⟨?_, hnd⟩
            intro hmem
            rcases List.mem_map.mp hmem with ⟨a, ha, hkey⟩
            unfold assignmentKey at hkey
            have hfields : a.seller = s ∧ a.platform = p ∧
                a.target_user_id = t := by
              have h1 := congrArg Prod.fst hkey
              have h2 := congrArg (fun q => q.2.1) hkey
              have h3 := congrArg (fun q => q.2.2) hkey
              exact ⟨h1, h2, h3⟩
            have h3f : (db.any fun a =>
                a.seller == s && decide (a.platform = p) &&
                a.target_user_id == t) = false := by
              revert h3
              cases db.any fun a =>
                a.seller == s && decide (a.platform = p) &&
                a.target_user_id == t <;> simp
            rw [List.any_eq_false] at h3f
            apply h3f a ha
            simp [hfields.1, hfields.2.1, hfields.2.2]
    · rw [if_pos h1] at hok
      cases hok
  · intro hfull
    unfold claimWallet
    by_cases h1 : (match p with
        | Platform.limitless => lus
        | Platform.boostyfi => bus).contains t
    · rw [if_neg (not_not_intro h1), if_pos hfull]
      exact ⟨_, rfl⟩
    · rw [if_pos h1]
      exact ⟨_, rfl⟩

theorem claim_C9_witness :
    (∀ p2 t2, assignmentCount
      [⟨7, Platform.limitless, 3⟩] p2 t2 ≤ 5) ∧
    (([⟨7, Platform.limitless, 3⟩] :
      List SellerAssignment).map assignmentKey).Nodup :=
  (claim_C9_wallet_invariants [3] [] [] 7 Platform.limitless 3).1
    [⟨7, Platform.limitless, 3⟩]
    (fun p2 t2 => by simp [assignmentCount])
    (by decide) rfl

theorem deleteNode_resolved (st : List StoredNode) (i : Nat)
    (h : parentResolved st) : parentResolved (deleteNode st i) := by
  intro x hx p hp
  unfold deleteNode at hx
  rcases List.mem_map.mp hx with ⟨x0, hx0, hmap⟩
  have hx0mem : x0 ∈ st := (List.mem_filter.mp hx0).1
  by_cases hpar : x0.parent = some i
  · rw [if_pos hpar] at hmap
    rw [← hmap] at hp
    cases hp
  · rw [if_neg hpar] at hmap
    rw [← hmap] at hp
    rcases h x0 hx0mem p hp with ⟨y, hy, hyid⟩
    have hpi : p ≠ i := by
      intro he
      rw [he] at hp
      exact hpar hp
    refine ⟨if y.parent = some i then { y with parent := none } else y,
      ?_, ?_⟩
    · unfold deleteNode
      apply List.mem_map_of_mem
      refine List.mem_filter.mpr ⟨hy, ?_⟩
      simp [hyid, hpi]
    · by_cases hyp : y.parent = some i
      · rw [if_pos hyp]
        exact hyid
      · rw [if_neg hyp]
        exact hyid

/-- C10: every non-null parent reference always resolves to an existing
node: the bulk import links a parent only when both child and parent ids
resolve, so a freshly built store satisfies the resolution invariant, and
deleting a node sets its children's parent to null (`on_delete=SET_NULL`)
rather than leaving a dangling id — so queries never observe a non-null
parent pointing at a missing node. -/
theorem claim_C10_parent_resolution (input : List Node)
    (store : List StoredNode) (h : build input = Except.ok store)
    (i : Nat) :
    parentResolved store ∧
      (∀ st : List StoredNode, parentResolved st →
        parentResolved (deleteNode st i)) := by
  rcases build_ok_iff.mp h with ⟨hnd, _, hst⟩
  subst hst
  exact ⟨buildStore_resolved input hnd, fun st hres =>
    deleteNode_resolved st i hres⟩

theorem claim_C10_witness : parentResolved exampleStore :=
  (claim_C10_parent_resolution exampleInput exampleStore rfl 2).1

